import Mathlib

/-!
# Verification of the pgEdge Anonymizer core

A shallow embedding, in Lean 4, of the anonymization engine of the
`pgedge-anonymizer` repository, together with theorems settling the
specification claims about it.

Embedded components (each definition is translated from the named Go
source):

* the two-tier Value Dictionary (`internal/pattern/pattern.go`, second
  compilation unit: `Dictionary.Get`, `Set`, `SetUnique`, `IsUsed`,
  `PreloadUsedValues`);
* the scalar column processor's per-value logic including the
  collision-retry loop and `addUniqueSuffix` (column processor unit);
* the JSON column processor's per-value logic (`processJSONValue`);
* the foreign-key analyzer (`internal/database/fkanalyzer.go`:
  `GetCascadeTargets`, `GetProcessingOrder`);
* the orchestrator's control flow (`Anonymizer.Run`), as a trace model
  over oracles for the database-dependent steps;
* the JSON path concrete-path construction (`jsonpath` unit:
  `buildConcretePath` and the match loop of `Extract`);
* the UK NHS number generator (`UKNHSGenerator.Generate`).

Go maps with randomized iteration order are modelled by passing the
iteration order explicitly; randomness (`randomInt`) is modelled by
passing the drawn values explicitly; database and file-system effects
are modelled by oracles supplying each operation's outcome.
-/

namespace PgAnon

/-! ## Association-list helpers (model of Go maps / the SQLite table) -/

/-- First value bound to `k` in an association list. -/
def assocFind (l : List (String × String)) (k : String) : Option String :=
  match l with
  | [] => none
  | (k2, v) :: rest => if k2 = k then some v else assocFind rest k

/-- Replace the binding of `k` if present, else append it
(model of SQLite `INSERT OR REPLACE` keyed by the primary key). -/
def assocPut (l : List (String × String)) (k v : String) : List (String × String) :=
  match l with
  | [] => [(k, v)]
  | (k2, v2) :: rest =>
    if k2 = k then (k2, v) :: rest else (k2, v2) :: assocPut rest k v

/-- First entry whose VALUE is `a`; returns its key
(model of `SELECT original FROM mappings WHERE anonymized = ?`). -/
def assocFindByVal (l : List (String × String)) (a : String) : Option String :=
  match l with
  | [] => none
  | (k, v) :: rest => if v = a then some k else assocFindByVal rest a

/-! ## The Value Dictionary

Model of `Dictionary` from the `anonymizer` package: an LRU cache
(`hashicorp/golang-lru`, most-recent first, bounded by `cap`), an
in-memory reverse set of taken anonymized values, and the SQLite disk
tier keyed by `original`. -/

structure Dict where
  cap : Nat
  cache : List (String × String)
  reverse : List String
  disk : List (String × String)
deriving Repr, DecidableEq

/-- A fresh dictionary (`NewDictionary`). -/
def Dict.empty (cap : Nat) : Dict := ⟨cap, [], [], []⟩

/-- `lru.Cache.Get`: on a hit the entry moves to the front (most
recently used); on a miss the cache is unchanged. -/
def lruGet (c : List (String × String)) (k : String) :
    Option String × List (String × String) :=
  match assocFind c k with
  | none => (none, c)
  | some v => (some v, (k, v) :: c.filter (fun p => p.1 ≠ k))

/-- `lru.Cache.Add`: insert at the front, dropping any old binding of
the key; evict from the back beyond capacity. -/
def lruAdd (cap : Nat) (c : List (String × String)) (k v : String) :
    List (String × String) :=
  ((k, v) :: c.filter (fun p => p.1 ≠ k)).take cap

/-- Membership in the in-memory reverse set. -/
def revMem (r : List String) (a : String) : Bool := a ∈ r

/-- Insert into the reverse set (`d.reverse[anonymized] = true`). -/
def revAdd (r : List String) (a : String) : List String :=
  if a ∈ r then r else a :: r

/-- `Dictionary.setInternal`: add to the LRU, mark the reverse set,
write through to the disk tier. -/
def Dict.setInternal (d : Dict) (o a : String) : Dict :=
  { d with
    cache := lruAdd d.cap d.cache o a
    reverse := revAdd d.reverse a
    disk := assocPut d.disk o a }

/-- `Dictionary.Set`. -/
def Dict.set (d : Dict) (o a : String) : Dict := d.setInternal o a

/-- `Dictionary.Get`: LRU first (recency bump on hit); on a miss the
disk tier is consulted and a hit there is promoted into the LRU. -/
def Dict.get (d : Dict) (o : String) : Option String × Dict :=
  match lruGet d.cache o with
  | (some v, c2) => (some v, { d with cache := c2 })
  | (none, _) =>
    match assocFind d.disk o with
    | none => (none, d)
    | some a => (some a, { d with cache := lruAdd d.cap d.cache o a })

/-- `Dictionary.SetUnique`: store `o ↦ a` only if `a` is not already
taken.  When `a` is in the reverse set, the same-original exemption is
judged from the LRU alone (`d.cache.Get(original)`); otherwise the disk
tier's reverse lookup decides, and only a completely fresh `a` is
stored. Returns (stored-or-ok?, new state). -/
def Dict.setUnique (d : Dict) (o a : String) : Bool × Dict :=
  if revMem d.reverse a then
    match lruGet d.cache o with
    | (some v, c2) =>
      if v = a then (true, { d with cache := c2 })
      else (false, { d with cache := c2 })
    | (none, _) => (false, d)
  else
    match assocFindByVal d.disk a with
    | some o2 =>
      let d2 := { d with reverse := revAdd d.reverse a }
      if o2 = o then (true, d2) else (false, d2)
    | none => (true, d.setInternal o a)

/-- `Dictionary.PreloadUsedValues`: mark each value as taken. -/
def Dict.preloadUsedValues (d : Dict) (vs : List String) : Dict :=
  { d with reverse := vs.foldl revAdd d.reverse }

/-! ## addUniqueSuffix (column processor unit, lines 28-38) -/

/-- `strings.LastIndex(value, "@")` on a character-list view:
index of the last occurrence, `none` when absent. -/
def lastIdxOf (c : Char) (l : List Char) : Option Nat :=
  match l with
  | [] => none
  | x :: rest =>
    match lastIdxOf c rest with
    | some i => some (i + 1)
    | none => if x = c then some 0 else none

/-- `addUniqueSuffix`: insert the decimal suffix before the last `'@'`
when that `'@'` sits at a positive index, else append it. -/
def addUniqueSuffixL (value : List Char) (suffix : Nat) : List Char :=
  match lastIdxOf '@' value with
  | some idx =>
    if 0 < idx then
      value.take idx ++ (Nat.repr suffix).toList ++ value.drop idx
    else value ++ (Nat.repr suffix).toList
  | none => value ++ (Nat.repr suffix).toList

/-- `addUniqueSuffix` on strings. -/
def addUniqueSuffix (value : String) (suffix : Nat) : String :=
  ⟨addUniqueSuffixL value.toList suffix⟩

/-! ## Facts about `lastIdxOf` -/

theorem lastIdxOf_of_not_mem (c : Char) (l : List Char) (h : c ∉ l) :
    lastIdxOf c l = none := by
  induction l with
  | nil => rfl
  | cons x rest ih =>
    simp only [List.mem_cons, not_or] at h
    have hx : ¬ x = c := fun e => h.1 e.symm
    simp [lastIdxOf, ih h.2, hx]

theorem lastIdxOf_append (pre post : List Char) (h : '@' ∉ post) :
    lastIdxOf '@' (pre ++ '@' :: post) = some pre.length := by
  induction pre with
  | nil => simp [lastIdxOf, lastIdxOf_of_not_mem '@' post h]
  | cons x rest ih => simp [lastIdxOf, ih]

/-! ## Claim C6: the suffix insertion rule -/

/-- C6 (counterexample): the claim states that for every value whose
last `'@'` is present the suffix is inserted immediately before that
`'@'`.  The value `"@x.com"` contains `'@'`, yet `addUniqueSuffix`
appends the suffix at the end, because the code additionally requires
the index of the last `'@'` to be positive (`idx > 0`). -/
theorem addUniqueSuffix_at_sign_head :
    ('@' ∈ "@x.com".toList) ∧
    addUniqueSuffix "@x.com" 1 = "@x.com1" ∧
    addUniqueSuffix "@x.com" 1 ≠ "1@x.com" := by
  refine ⟨by decide, by decide, by decide⟩

/-- C6 (amended): for every value `v` and positive suffix `k`: when `v`
has no `'@'` at all, or its last `'@'` is the very first character, the
decimal suffix is appended at the end; when the last `'@'` sits at a
positive index the suffix is inserted immediately before it. -/
theorem addUniqueSuffix_spec (v : String) (k : Nat) (hk : 0 < k) :
    ('@' ∉ v.toList →
      addUniqueSuffix v k = ⟨v.toList ++ (Nat.repr k).toList⟩) ∧
    (∀ post, '@' ∉ post → v.toList = '@' :: post →
      addUniqueSuffix v k = ⟨v.toList ++ (Nat.repr k).toList⟩) ∧
    (∀ pre post, pre ≠ [] → '@' ∉ post → v.toList = pre ++ '@' :: post →
      addUniqueSuffix v k = ⟨pre ++ (Nat.repr k).toList ++ '@' :: post⟩) := by
  refine ⟨?_, ?_, ?_⟩
  · intro h
    have hn : lastIdxOf '@' v.toList = none := lastIdxOf_of_not_mem '@' v.toList h
    simp only [String.toList] at hn
    simp [addUniqueSuffix, addUniqueSuffixL, String.toList, hn]
  · intro post hpost hv
    have h0 : lastIdxOf '@' v.toList = some 0 := by
      rw [hv]
      exact lastIdxOf_append [] post hpost
    simp only [String.toList] at h0
    simp [addUniqueSuffix, addUniqueSuffixL, String.toList, h0]
  · intro pre post hpre hpost hv
    have hidx : lastIdxOf '@' v.toList = some pre.length := by
      rw [hv]; exact lastIdxOf_append pre post hpost
    simp only [String.toList] at hidx
    have hlen : 0 < pre.length := List.length_pos.mpr hpre
    simp only [String.toList] at hv
    simp only [addUniqueSuffix, addUniqueSuffixL, String.toList, hidx, hlen,
      if_pos]
    rw [hv, List.take_left, List.drop_left]

/-- C6 (witness): instantiation at `"a@b"` with suffix 1. -/
theorem addUniqueSuffix_spec_witness :
    addUniqueSuffix "a@b" 1 = ⟨['a'] ++ (Nat.repr 1).toList ++ '@' :: ['b']⟩ :=
  (addUniqueSuffix_spec "a@b" 1 (by decide)).2.2 ['a'] ['b']
    (by decide) (by decide) (by decide)

/-! ## Claim C5: `SetUnique` -/

/-- Every anonymized value stored on the disk tier is recorded in the
in-memory reverse set.  This holds in every state the program itself
reaches, since `setInternal` updates both together and nothing removes
reverse-set entries. -/
def revSound (d : Dict) : Prop := ∀ p ∈ d.disk, p.2 ∈ d.reverse

theorem assocFindByVal_mem (l : List (String × String)) (a k : String)
    (h : assocFindByVal l a = some k) : (k, a) ∈ l := by
  induction l with
  | nil => simp [assocFindByVal] at h
  | cons p rest ih =>
    obtain ⟨k2, v2⟩ := p
    by_cases hv : v2 = a
    · simp only [assocFindByVal, hv, if_pos, Option.some.injEq] at h
      subst hv
      subst h
      exact List.mem_cons_self _ _
    · simp only [assocFindByVal, hv, if_neg, ite_false] at h
      exact List.mem_cons_of_mem _ (ih h)

/-! ### Small LRU facts -/

theorem lruGet_of_find_none {c : List (String × String)} {k : String}
    (h : assocFind c k = none) : lruGet c k = (none, c) := by
  unfold lruGet
  rw [h]

theorem lruGet_of_find_some {c : List (String × String)} {k v : String}
    (h : assocFind c k = some v) :
    lruGet c k = (some v, (k, v) :: c.filter (fun p => p.1 ≠ k)) := by
  unfold lruGet
  rw [h]

theorem filter_ne_take_idem (l : List (String × String)) (k : String) (n : Nat) :
    ((l.filter (fun p => p.1 ≠ k)).take n).filter (fun p => p.1 ≠ k) =
      (l.filter (fun p => p.1 ≠ k)).take n := by
  apply List.filter_eq_self.mpr
  intro p hp
  have h2 : p ∈ l.filter (fun p => p.1 ≠ k) := List.mem_of_mem_take hp
  simpa using List.of_mem_filter h2

theorem filter_ne_idem (l : List (String × String)) (k : String) :
    ((l.filter (fun p => p.1 ≠ k))).filter (fun p => p.1 ≠ k) =
      l.filter (fun p => p.1 ≠ k) := by
  apply List.filter_eq_self.mpr
  intro p hp
  simpa using List.of_mem_filter hp

theorem lruGet_cons_self (l : List (String × String)) (k v : String)
    (hl : l.filter (fun p => p.1 ≠ k) = l) :
    lruGet ((k, v) :: l) k = (some v, (k, v) :: l) := by
  unfold lruGet
  rw [show assocFind ((k, v) :: l) k = some v by simp [assocFind]]
  have h2 : ((k, v) :: l).filter (fun p => p.1 ≠ k) = l := by
    rw [List.filter_cons]
    simpa using hl
  rw [h2]

/-- A dictionary whose LRU answers `o ↦ a` without reordering, with `a`
already in the reverse set, maps `SetUnique(o, a)` to `true` and stays
unchanged. -/
theorem setUnique_hit (d : Dict) (o a : String) (hrev : a ∈ d.reverse)
    (hget : lruGet d.cache o = (some a, d.cache)) :
    d.setUnique o a = (true, d) := by
  unfold Dict.setUnique
  rw [hget]
  simp [revMem, hrev]

theorem mem_revAdd_self (r : List String) (a : String) : a ∈ revAdd r a := by
  unfold revAdd
  split
  · assumption
  · exact List.mem_cons_self _ _

/-- C5 (counterexample): with a capacity-1 dictionary, storing
`("v","a")`, then `("w","b")` (which evicts `("v","a")` from the LRU),
a further `SetUnique("v","a")` returns `false` even though `"a"` is
taken by `"v"` itself and by no other original — the claimed
"true iff not taken by a different original" fails. -/
theorem setUnique_evicted_false :
    (((Dict.empty 1).setUnique "v" "a").1 = true) ∧
    ((((((Dict.empty 1).setUnique "v" "a").2.set "w" "b")).setUnique "v" "a").1
      = false) ∧
    ((((Dict.empty 1).setUnique "v" "a").2.set "w" "b").disk.filter
      (fun p => p.2 = "a") = [("v", "a")]) := by
  refine ⟨by decide, by decide, by decide⟩

/-- C5 (amended): `SetUnique(original, anonymized)` returns true iff
either `anonymized` is not yet in the reverse set and the disk tier's
reverse lookup finds nothing or finds `original` itself, or `anonymized`
is in the reverse set and the in-memory LRU currently maps `original`
to `anonymized`; in particular a same-pair mapping that was evicted
from the LRU is rejected like a collision.  Moreover, in any state
whose reverse set covers the disk tier (as in every state the program
reaches) and whose LRU capacity is positive, a successful
`SetUnique(v,a)` immediately followed by `SetUnique(v,a)` returns true
again and leaves the dictionary unchanged. -/
theorem setUnique_spec (d : Dict) (o a : String) :
    ((d.setUnique o a).1 = true ↔
      ((a ∈ d.reverse ∧ (lruGet d.cache o).1 = some a) ∨
       (a ∉ d.reverse ∧
         (assocFindByVal d.disk a = none ∨ assocFindByVal d.disk a = some o)))) ∧
    (0 < d.cap → revSound d → (d.setUnique o a).1 = true →
      ((d.setUnique o a).2.setUnique o a) = (true, (d.setUnique o a).2)) := by
  constructor
  · by_cases hrev : a ∈ d.reverse
    · cases hx : assocFind d.cache o with
      | none =>
        have hg := lruGet_of_find_none hx
        simp [Dict.setUnique, revMem, hrev, hg]
      | some v =>
        have hg := lruGet_of_find_some hx
        by_cases hva : v = a
        · subst hva
          simp [Dict.setUnique, revMem, hrev, hg]
        · simp [Dict.setUnique, revMem, hrev, hg, hva, Ne.symm hva]
    · cases hf : assocFindByVal d.disk a with
      | none => simp [Dict.setUnique, revMem, hrev, hf]
      | some o2 =>
        by_cases ho : o2 = o
        · subst ho
          simp [Dict.setUnique, revMem, hrev, hf]
        · simp [Dict.setUnique, revMem, hrev, hf, ho]
  · intro hcap hsound h1
    by_cases hrev : a ∈ d.reverse
    · cases hx : assocFind d.cache o with
      | none =>
        have hg := lruGet_of_find_none hx
        simp [Dict.setUnique, revMem, hrev, hg] at h1
      | some v =>
        have hg := lruGet_of_find_some hx
        by_cases hva : v = a
        · rw [hva] at hg
          have hd1 : d.setUnique o a =
              (true, { d with
                cache := (o, a) :: d.cache.filter (fun p => p.1 ≠ o) }) := by
            simp [Dict.setUnique, revMem, hrev, hg]
          rw [hd1]
          exact setUnique_hit _ o a hrev
            (lruGet_cons_self (d.cache.filter (fun p => p.1 ≠ o)) o a
              (filter_ne_idem _ _))
        · simp [Dict.setUnique, revMem, hrev, hg, hva] at h1
    · cases hf : assocFindByVal d.disk a with
      | none =>
        -- fresh value: stored by `setInternal`; the repeated call hits
        -- the LRU entry just written at the front
        obtain ⟨n, hn⟩ : ∃ n, d.cap = n + 1 := ⟨d.cap - 1, by omega⟩
        have hd1 : d.setUnique o a = (true, d.setInternal o a) := by
          simp [Dict.setUnique, revMem, hrev, hf]
        rw [hd1]
        have hcache : (d.setInternal o a).cache =
            (o, a) :: (d.cache.filter (fun p => p.1 ≠ o)).take n := by
          simp [Dict.setInternal, lruAdd, hn]
        have hg2 := lruGet_cons_self
          ((d.cache.filter (fun p => p.1 ≠ o)).take n) o a
          (filter_ne_take_idem _ _ _)
        rw [← hcache] at hg2
        have hrev2 : a ∈ (d.setInternal o a).reverse := by
          simp only [Dict.setInternal]
          exact mem_revAdd_self _ _
        exact setUnique_hit _ o a hrev2 hg2
      | some o2 =>
        exfalso
        exact hrev (hsound _ (assocFindByVal_mem d.disk a o2 hf))

/-- C5 (witness): a fresh capacity-1 dictionary accepts `("v","a")` and
the immediately repeated call returns true without changing anything. -/
theorem setUnique_spec_witness :
    ((Dict.empty 1).setUnique "v" "a").1 = true ∧
    ((((Dict.empty 1).setUnique "v" "a").2.setUnique "v" "a") =
      (true, ((Dict.empty 1).setUnique "v" "a").2)) :=
  ⟨by decide,
   (setUnique_spec (Dict.empty 1) "v" "a").2 (by decide)
     (by intro p hp; simp [Dict.empty] at hp) (by decide)⟩

/-! ## Claim C9: the UK NHS generator (`UKNHSGenerator.Generate`)

The nine random draws of `randomInt(10)` are passed explicitly as
`d0` and `rest` (the Go code stores them in `digits[0..8]`). -/

/-- Weighted sum `Σ dᵢ·w-i` with weight starting at `w` and decreasing. -/
def wsum : List Nat → Nat → Nat
  | [], _ => 0
  | d :: ds, w => d * w + wsum ds (w - 1)

/-- The check-digit computation: `11 - sum % 11`, with 11 mapped to 0. -/
def nhsCheck (s : Nat) : Nat :=
  if 11 - s % 11 = 11 then 0 else 11 - s % 11

/-- `UKNHSGenerator.Generate`, digit part: nine drawn digits, a mod-11
check digit; when the check value is the invalid 10, the first digit is
bumped by one (mod 10) and the check digit recomputed. -/
def ukNHSDigits (d0 : Nat) (rest : List Nat) : List Nat :=
  if nhsCheck (d0 * 10 + wsum rest 9) = 10 then
    ((d0 + 1) % 10 :: rest) ++ [nhsCheck (((d0 + 1) % 10) * 10 + wsum rest 9)]
  else (d0 :: rest) ++ [nhsCheck (d0 * 10 + wsum rest 9)]

/-- The single character of a decimal digit. -/
def digitChar (d : Nat) : Char := Char.ofNat (48 + d)

/-- The `result` string of `Generate`: decimal renderings concatenated. -/
def renderDigits (ds : List Nat) : List Char :=
  ds.foldl (fun acc d => acc ++ (Nat.repr d).toList) []

/-- `UKNHSGenerator.Generate`: the ten digits, space-grouped 3-3-4 when
the input contains a space. -/
def ukNHSGenerate (input : String) (d0 : Nat) (rest : List Nat) : String :=
  let result := renderDigits (ukNHSDigits d0 rest)
  if ' ' ∈ input.toList then
    ⟨result.take 3 ++ ' ' ::
      ((result.drop 3).take 3 ++ ' ' :: (result.drop 6).take 4)⟩
  else ⟨result⟩

theorem nhsCheck_add (s : Nat) : (s + nhsCheck s) % 11 = 0 := by
  unfold nhsCheck
  split <;> omega

theorem nhsCheck_le (s : Nat) : nhsCheck s ≤ 10 := by
  unfold nhsCheck
  split <;> omega

theorem nhsCheck_regen (d0 t : Nat) (h0 : d0 < 10)
    (h : nhsCheck (d0 * 10 + t) = 10) :
    nhsCheck (((d0 + 1) % 10) * 10 + t) ≠ 10 := by
  rcases Nat.lt_or_ge d0 9 with h9 | h9
  · have hm : (d0 + 1) % 10 = d0 + 1 := Nat.mod_eq_of_lt (by omega)
    rw [hm]
    unfold nhsCheck at h ⊢
    split at h <;> split <;> omega
  · have hd9 : d0 = 9 := by omega
    subst hd9
    have hm : (9 + 1) % 10 = 0 := by norm_num
    rw [hm]
    unfold nhsCheck at h ⊢
    split at h <;> split <;> omega

theorem wsum_append_single (xs : List Nat) (c : Nat) :
    ∀ w, xs.length ≤ w → wsum (xs ++ [c]) w = wsum xs w + c * (w - xs.length) := by
  induction xs with
  | nil => intro w _; simp [wsum]
  | cons x xs ih =>
    intro w hw
    simp only [List.cons_append, wsum, List.length_cons] at *
    rw [show xs.append [c] = xs ++ [c] from rfl, ih (w - 1) (by omega)]
    have hsub : w - 1 - xs.length = w - (xs.length + 1) := by omega
    rw [hsub]
    ring

theorem foldl_append_repr (ds : List Nat) (acc : List Char) :
    ds.foldl (fun acc d => acc ++ (Nat.repr d).toList) acc =
      acc ++ ds.flatMap (fun d => (Nat.repr d).toList) := by
  induction ds generalizing acc with
  | nil => simp
  | cons d ds ih =>
    rw [List.foldl_cons, ih, List.flatMap_cons, List.append_assoc]

theorem repr_digit : ∀ d, d < 10 → (Nat.repr d).toList = [digitChar d] := by
  decide

theorem renderDigits_eq_map (ds : List Nat) (h : ∀ d ∈ ds, d < 10) :
    renderDigits ds = ds.map digitChar := by
  unfold renderDigits
  rw [foldl_append_repr]
  simp only [List.nil_append]
  induction ds with
  | nil => simp
  | cons d rest ih =>
    rw [List.flatMap_cons, List.map_cons,
      repr_digit d (h d (List.mem_cons_self _ _))]
    rw [ih (fun x hx => h x (List.mem_cons_of_mem _ hx))]
    rfl

/-- C9: for every input string and every outcome of the nine random
digit draws, the UK NHS generator emits exactly ten digits whose last
digit is a valid modulus-11 check digit (weights 10 down to 2, the
check digit itself weighted 1), the invalid check value 10 is never
produced (also on the regeneration branch), and the rendering is
grouped 3-3-4 with spaces exactly when the input contains a space. -/
theorem ukNHS_generate_valid (input : String) (d0 : Nat) (rest : List Nat)
    (h0 : d0 < 10) (hlen : rest.length = 8) (hrest : ∀ d ∈ rest, d < 10) :
    (ukNHSDigits d0 rest).length = 10 ∧
    (∀ d ∈ ukNHSDigits d0 rest, d < 10) ∧
    wsum (ukNHSDigits d0 rest) 10 % 11 = 0 ∧
    ukNHSGenerate input d0 rest =
      (if ' ' ∈ input.toList then
        ⟨((ukNHSDigits d0 rest).take 3).map digitChar ++ ' ' ::
          ((((ukNHSDigits d0 rest).drop 3).take 3).map digitChar ++ ' ' ::
            (((ukNHSDigits d0 rest).drop 6).take 4).map digitChar)⟩
      else ⟨(ukNHSDigits d0 rest).map digitChar⟩) := by
  have hdig : ∀ d ∈ ukNHSDigits d0 rest, d < 10 := by
    intro d hd
    unfold ukNHSDigits at hd
    by_cases hc : nhsCheck (d0 * 10 + wsum rest 9) = 10
    · rw [if_pos hc] at hd
      rcases List.mem_append.mp hd with h | h
      · rcases List.mem_cons.mp h with h | h
        · subst h; exact Nat.mod_lt _ (by omega)
        · exact hrest d h
      · -- the recomputed check digit: it is never 10 again
        have hd10 : d = nhsCheck (((d0 + 1) % 10) * 10 + wsum rest 9) := by
          simpa using h
        subst hd10
        have hle := nhsCheck_le (((d0 + 1) % 10) * 10 + wsum rest 9)
        have hne := nhsCheck_regen d0 (wsum rest 9) h0 hc
        omega
    · rw [if_neg hc] at hd
      rcases List.mem_append.mp hd with h | h
      · rcases List.mem_cons.mp h with h | h
        · subst h; exact h0
        · exact hrest d h
      · have hd10 : d = nhsCheck (d0 * 10 + wsum rest 9) := by simpa using h
        subst hd10
        have := nhsCheck_le (d0 * 10 + wsum rest 9)
        omega
  have hlen10 : (ukNHSDigits d0 rest).length = 10 := by
    unfold ukNHSDigits
    split <;> simp [hlen]
  have hvalid : wsum (ukNHSDigits d0 rest) 10 % 11 = 0 := by
    unfold ukNHSDigits
    split
    · rw [wsum_append_single ((d0 + 1) % 10 :: rest) _ 10 (by simp [hlen])]
      simp only [List.length_cons, hlen, wsum]
      norm_num
      have := nhsCheck_add (((d0 + 1) % 10) * 10 + wsum rest 9)
      omega
    · rw [wsum_append_single (d0 :: rest) _ 10 (by simp [hlen])]
      simp only [List.length_cons, hlen, wsum]
      norm_num
      have := nhsCheck_add (d0 * 10 + wsum rest 9)
      omega
  refine ⟨hlen10, hdig, hvalid, ?_⟩
  simp only [ukNHSGenerate]
  rw [renderDigits_eq_map _ hdig]
  by_cases hsp : ' ' ∈ input.toList
  · rw [if_pos hsp, if_pos hsp]
    simp only [List.map_take, List.map_drop]
  · rw [if_neg hsp, if_neg hsp]

/-- C9 (witness): concrete draw `1, 0×8` — digits `1000000009`,
check digit 9, no spaces for input `"x"`. -/
theorem ukNHS_generate_valid_witness :
    (ukNHSDigits 1 [0, 0, 0, 0, 0, 0, 0, 0]).length = 10 ∧
    (∀ d ∈ ukNHSDigits 1 [0, 0, 0, 0, 0, 0, 0, 0], d < 10) ∧
    wsum (ukNHSDigits 1 [0, 0, 0, 0, 0, 0, 0, 0]) 10 % 11 = 0 ∧
    ukNHSGenerate "x" 1 [0, 0, 0, 0, 0, 0, 0, 0] =
      (if ' ' ∈ "x".toList then
        ⟨((ukNHSDigits 1 [0, 0, 0, 0, 0, 0, 0, 0]).take 3).map digitChar ++ ' ' ::
          ((((ukNHSDigits 1 [0, 0, 0, 0, 0, 0, 0, 0]).drop 3).take 3).map
              digitChar ++ ' ' ::
            (((ukNHSDigits 1 [0, 0, 0, 0, 0, 0, 0, 0]).drop 6).take 4).map
              digitChar)⟩
      else ⟨(ukNHSDigits 1 [0, 0, 0, 0, 0, 0, 0, 0]).map digitChar⟩) :=
  ukNHS_generate_valid "x" 1 [0, 0, 0, 0, 0, 0, 0, 0]
    (by decide) (by decide) (by decide)

/-! ## Claim C8: concrete paths in `Processor.Extract`

The third-party JSON and path evaluation (`oj.Parse`, `jp.Get`) is
external; its result list is passed in as `results`.  The match loop of
`Extract` and `buildConcretePath` are embedded from the `jsonpath`
unit. -/

/-- A value produced by the path evaluator: a string, JSON null, or
anything else (object, array, number, boolean). -/
inductive JValue where
  | str (s : String)
  | jnull
  | other
deriving DecidableEq, Repr

/-- A match of `Extract`: the concrete path and the string value. -/
structure PathMatch where
  path : List Char
  value : String
deriving DecidableEq, Repr

/-- The scan loop of `buildConcretePath`: replace the first `[*]` with
`[index]`, copy everything else verbatim. -/
def replaceFirstStar (l : List Char) (idx : Nat) : List Char :=
  match l with
  | [] => []
  | c :: rest =>
    if l.take 3 = ['[', '*', ']'] then
      '[' :: ((Nat.repr idx).toList ++ (']' :: l.drop 3))
    else c :: replaceFirstStar rest idx

/-- Whether the literal `[*]` occurs in the character list. -/
def hasStar (l : List Char) : Bool :=
  match l with
  | [] => false
  | _ :: rest => l.take 3 = ['[', '*', ']'] || hasStar rest

/-- `buildConcretePath`: with a single result (or no wildcard) the
original path is returned; otherwise the first `[*]` becomes the
concrete index. -/
def buildConcretePath (pathExpr : List Char) (index total : Nat) : List Char :=
  if total = 1 then pathExpr else replaceFirstStar pathExpr index

/-- The match loop of `Extract`: string results produce a match at the
built concrete path; nulls and non-strings are skipped. -/
def extractMatches (pathExpr : List Char) (results : List JValue) :
    List PathMatch :=
  results.enum.filterMap fun p =>
    match p.2 with
    | .str s => some ⟨buildConcretePath pathExpr p.1 results.length, s⟩
    | _ => none

theorem replaceFirstStar_of_no_star (i : Nat) :
    ∀ l : List Char, hasStar l = false → replaceFirstStar l i = l := by
  intro l
  induction l with
  | nil => intro _; rfl
  | cons c rest ih =>
    intro h
    simp only [hasStar, Bool.or_eq_false_iff, decide_eq_false_iff_not] at h
    unfold replaceFirstStar
    rw [if_neg h.1, ih h.2]

theorem replaceFirstStar_leftmost (i : Nat) :
    ∀ pre suf : List Char, hasStar pre = false →
      replaceFirstStar (pre ++ '[' :: '*' :: ']' :: suf) i =
        pre ++ '[' :: ((Nat.repr i).toList ++ (']' :: suf)) := by
  intro pre
  induction pre with
  | nil =>
    intro suf _
    unfold replaceFirstStar
    simp [List.take, List.drop]
  | cons c pre ih =>
    intro suf h
    simp only [hasStar, Bool.or_eq_false_iff, decide_eq_false_iff_not] at h
    have hcond : ¬ ((c :: (pre ++ '[' :: '*' :: ']' :: suf)).take 3 =
        ['[', '*', ']']) := by
      match pre with
      | [] =>
        intro heq
        simp [List.take] at heq
      | [p0] =>
        intro heq
        simp [List.take] at heq
      | p0 :: p1 :: rest =>
        intro heq
        simp only [List.cons_append, List.take] at heq
        have heq2 : c = '[' ∧ p0 = '*' ∧ p1 = ']' := by simpa using heq
        exact h.1 (by simp [List.take, heq2.1, heq2.2.1, heq2.2.2])
    have hstep : replaceFirstStar (c :: (pre ++ '[' :: '*' :: ']' :: suf)) i =
        c :: replaceFirstStar (pre ++ '[' :: '*' :: ']' :: suf) i := by
      simp only [replaceFirstStar]
      rw [if_neg hcond]
    rw [List.cons_append, hstep, ih suf h.2, List.cons_append]

/-- C8 (counterexample): the claim requires wildcards to be replaced by
concrete indices for every number of mlist.  With the wildcard path
`$.a[*]` and exactly one match, `Extract` returns the wildcard path
verbatim instead of the concrete `$.a[0]`. -/
theorem extract_single_match_keeps_wildcard :
    extractMatches "$.a[*]".toList [JValue.str "v"] =
      [⟨"$.a[*]".toList, "v"⟩] ∧
    ("$.a[*]".toList ≠ "$.a[0]".toList) ∧
    replaceFirstStar "$.a[*]".toList 0 = "$.a[0]".toList := by
  refine ⟨by decide, by decide, by decide⟩

/-- C8 (amended): each string match at result index `i` carries the
concrete path `replaceFirstStar pathExpr i` whenever the path yields
two or more results; that replacement rewrites exactly the leftmost
`[*]` to `[i]` and leaves everything else — inner wildcards included —
literal, and a path with no `[*]` is returned unchanged.  When the path
yields exactly one result, the original path is returned verbatim,
wildcards unreplaced. -/
theorem extract_concrete_path_spec (pathExpr : List Char)
    (results : List JValue) :
    (results.length = 1 →
      ∀ m ∈ extractMatches pathExpr results, m.path = pathExpr) ∧
    (results.length ≠ 1 → ∀ i s, results[i]? = some (JValue.str s) →
      (⟨replaceFirstStar pathExpr i, s⟩ : PathMatch) ∈
        extractMatches pathExpr results) ∧
    (∀ pre suf i, hasStar pre = false →
      replaceFirstStar (pre ++ '[' :: '*' :: ']' :: suf) i =
        pre ++ '[' :: ((Nat.repr i).toList ++ (']' :: suf))) ∧
    (∀ i, hasStar pathExpr = false →
      replaceFirstStar pathExpr i = pathExpr) := by
  refine ⟨?_, ?_, ?_, ?_⟩
  · intro h1 m hm
    unfold extractMatches at hm
    rcases List.mem_filterMap.mp hm with ⟨⟨i, jv⟩, _, heq⟩
    cases jv with
    | str s =>
      simp only [Option.some.injEq] at heq
      rw [← heq]
      simp [buildConcretePath, h1]
    | jnull => simp at heq
    | other => simp at heq
  · intro hne i s hget
    unfold extractMatches
    apply List.mem_filterMap.mpr
    refine ⟨(i, JValue.str s), ?_, ?_⟩
    · exact List.mk_mem_enum_iff_getElem?.mpr hget
    · simp [buildConcretePath, hne]
  · intro pre suf i h
    exact replaceFirstStar_leftmost i pre suf h
  · intro i h
    exact replaceFirstStar_of_no_star i pathExpr h

/-- C8 (witness): two mlist on `$.a[*].b[*]`: index 1 is substituted
into the leftmost wildcard only. -/
theorem extract_concrete_path_spec_witness :
    (⟨replaceFirstStar "$.a[*].b[*]".toList 1, "v"⟩ : PathMatch) ∈
      extractMatches "$.a[*].b[*]".toList [JValue.other, JValue.str "v"] ∧
    replaceFirstStar "$.a[*].b[*]".toList 1 = "$.a[1].b[*]".toList :=
  ⟨(extract_concrete_path_spec "$.a[*].b[*]".toList
      [JValue.other, JValue.str "v"]).2.1 (by decide) 1 "v" (by decide),
   by decide⟩

/-! ## Dictionary invariants

`dictWF`: disk keys are unique (the SQLite `original` column is the
primary key) and every LRU binding agrees with the disk tier (every
write goes through `setInternal`, which writes both).  `mapsTo d v a`:
the dictionary durably maps `v` to `a`. -/

def dictWF (d : Dict) : Prop :=
  (d.disk.map Prod.fst).Nodup ∧
  ∀ k x, assocFind d.cache k = some x → assocFind d.disk k = some x

def mapsTo (d : Dict) (v a : String) : Prop :=
  assocFind d.disk v = some a ∧ ∀ x, assocFind d.cache v = some x → x = a

theorem assocFind_filter_ne {l : List (String × String)} {k v : String}
    (h : k ≠ v) :
    assocFind (l.filter (fun p => p.1 ≠ v)) k = assocFind l k := by
  induction l with
  | nil => rfl
  | cons p rest ih =>
    obtain ⟨pk, pv⟩ := p
    by_cases hp : pk = v
    · rw [List.filter_cons_of_neg (by simp [hp])]
      rw [ih]
      have hpk : ¬ pk = k := by rw [hp]; exact fun e => h e.symm
      simp only [assocFind]
      rw [if_neg hpk]
    · rw [List.filter_cons_of_pos (by simp [hp])]
      by_cases hk : pk = k
      · simp only [assocFind]
        rw [if_pos hk, if_pos hk]
      · simp only [assocFind]
        rw [if_neg hk, if_neg hk]
        exact ih

theorem assocFind_filter_self (l : List (String × String)) (v : String) :
    assocFind (l.filter (fun p => p.1 ≠ v)) v = none := by
  induction l with
  | nil => rfl
  | cons p rest ih =>
    obtain ⟨pk, pv⟩ := p
    by_cases hp : pk = v
    · rw [List.filter_cons_of_neg (by simp [hp])]
      exact ih
    · rw [List.filter_cons_of_pos (by simp [hp])]
      simp only [assocFind]
      rw [if_neg hp]
      exact ih

theorem assocFind_take {l : List (String × String)} {n : Nat} {k v : String}
    (h : assocFind (l.take n) k = some v) : assocFind l k = some v := by
  induction l generalizing n with
  | nil => simp [List.take] at h; cases h
  | cons p rest ih =>
    cases n with
    | zero => simp [List.take, assocFind] at h
    | succ m =>
      rw [List.take] at h
      by_cases hk : p.1 = k
      · simp only [assocFind, hk, if_pos] at h ⊢
        exact h
      · simp only [assocFind, hk, ite_false] at h ⊢
        exact ih h

theorem assocPut_find_self (l : List (String × String)) (k v : String) :
    assocFind (assocPut l k v) k = some v := by
  induction l with
  | nil => simp [assocPut, assocFind]
  | cons p rest ih =>
    by_cases hk : p.1 = k
    · simp [assocPut, hk, assocFind]
    · simp [assocPut, hk, assocFind, ih]

theorem assocPut_find_other {l : List (String × String)} {k k2 v : String}
    (h : k2 ≠ k) : assocFind (assocPut l k v) k2 = assocFind l k2 := by
  induction l with
  | nil =>
    have hkk : ¬ k = k2 := fun e => h e.symm
    simp only [assocPut, assocFind]
    rw [if_neg hkk]
  | cons p rest ih =>
    obtain ⟨pk, pv⟩ := p
    simp only [assocPut]
    by_cases hk : pk = k
    · rw [if_pos hk]
      have hp2 : ¬ pk = k2 := by rw [hk]; exact fun e => h e.symm
      simp only [assocFind]
      rw [if_neg hp2, if_neg hp2]
    · rw [if_neg hk]
      simp only [assocFind]
      by_cases hp2 : pk = k2
      · rw [if_pos hp2, if_pos hp2]
      · rw [if_neg hp2, if_neg hp2]
        exact ih

theorem mem_assocPut {l : List (String × String)} {k v : String}
    {q : String × String} (h : q ∈ assocPut l k v) : q ∈ l ∨ q.1 = k := by
  induction l with
  | nil =>
    simp only [assocPut, List.mem_singleton] at h
    right
    rw [h]
  | cons p rest ih =>
    obtain ⟨pk, pv⟩ := p
    simp only [assocPut] at h
    by_cases hk : pk = k
    · rw [if_pos hk] at h
      rcases List.mem_cons.mp h with h1 | h1
      · right; rw [h1]; exact hk
      · left; exact List.mem_cons_of_mem _ h1
    · rw [if_neg hk] at h
      rcases List.mem_cons.mp h with h1 | h1
      · left; rw [h1]; exact List.mem_cons_self _ _
      · rcases ih h1 with h2 | h2
        · left; exact List.mem_cons_of_mem _ h2
        · right; exact h2

theorem assocPut_keys_nodup {l : List (String × String)} {k v : String}
    (h : (l.map Prod.fst).Nodup) : ((assocPut l k v).map Prod.fst).Nodup := by
  induction l with
  | nil => simp [assocPut]
  | cons p rest ih =>
    obtain ⟨pk, pv⟩ := p
    rw [List.map_cons, List.nodup_cons] at h
    simp only [assocPut]
    by_cases hk : pk = k
    · rw [if_pos hk]
      rw [List.map_cons, List.nodup_cons]
      exact ⟨h.1, h.2⟩
    · rw [if_neg hk]
      rw [List.map_cons, List.nodup_cons]
      constructor
      · intro hmem
        rcases List.mem_map.mp hmem with ⟨q, hq, hq1⟩
        rcases mem_assocPut hq with h1 | h1
        · exact h.1 (List.mem_map.mpr ⟨q, h1, hq1⟩)
        · rw [hq1] at h1
          exact hk h1
      · exact ih h.2

/-! ### Characterizing the dictionary operations -/

theorem get_eq_hit {d : Dict} {o v : String}
    (hc : assocFind d.cache o = some v) :
    d.get o =
      (some v, { d with cache := (o, v) :: d.cache.filter (fun p => p.1 ≠ o) }) := by
  unfold Dict.get
  rw [lruGet_of_find_some hc]

theorem get_eq_promote {d : Dict} {o a : String}
    (hc : assocFind d.cache o = none) (hd : assocFind d.disk o = some a) :
    d.get o = (some a, { d with cache := lruAdd d.cap d.cache o a }) := by
  unfold Dict.get
  rw [lruGet_of_find_none hc, hd]

theorem get_eq_miss {d : Dict} {o : String}
    (hc : assocFind d.cache o = none) (hd : assocFind d.disk o = none) :
    d.get o = (none, d) := by
  unfold Dict.get
  rw [lruGet_of_find_none hc, hd]

theorem assocFind_front (l : List (String × String)) (o v k : String) :
    assocFind ((o, v) :: l.filter (fun p => p.1 ≠ o)) k =
      if o = k then some v else assocFind l k := by
  simp only [assocFind]
  by_cases hk : o = k
  · rw [if_pos hk, if_pos hk]
  · rw [if_neg hk, if_neg hk]
    exact assocFind_filter_ne (fun e => hk e.symm)

theorem assocFind_lruAdd {cap : Nat} {l : List (String × String)}
    {o v k x : String} (h : assocFind (lruAdd cap l o v) k = some x) :
    (k = o ∧ x = v) ∨ (k ≠ o ∧ assocFind l k = some x) := by
  unfold lruAdd at h
  have h2 := assocFind_take h
  rw [assocFind_front] at h2
  by_cases hk : o = k
  · rw [if_pos hk] at h2
    left
    exact ⟨hk.symm, by cases h2; rfl⟩
  · rw [if_neg hk] at h2
    right
    exact ⟨fun e => hk e.symm, h2⟩

theorem assocFind_of_mem_nodup {l : List (String × String)} {k x : String}
    (hmem : (k, x) ∈ l) (hnd : (l.map Prod.fst).Nodup) :
    assocFind l k = some x := by
  induction l with
  | nil => cases hmem
  | cons p rest ih =>
    obtain ⟨pk, pv⟩ := p
    rw [List.map_cons, List.nodup_cons] at hnd
    rcases List.mem_cons.mp hmem with h1 | h1
    · cases h1
      simp [assocFind]
    · have hpk : ¬ pk = k := by
        intro e
        exact hnd.1 (List.mem_map.mpr ⟨(k, x), h1, e.symm⟩)
      simp only [assocFind]
      rw [if_neg hpk]
      exact ih h1 hnd.2


theorem setUnique_eq_hit_same {d : Dict} {o a : String} (hrev : a ∈ d.reverse)
    (hc : assocFind d.cache o = some a) :
    d.setUnique o a =
      (true, { d with cache := (o, a) :: d.cache.filter (fun p => p.1 ≠ o) }) := by
  unfold Dict.setUnique
  rw [lruGet_of_find_some hc]
  simp [revMem, hrev]

theorem setUnique_eq_hit_ne {d : Dict} {o a w : String} (hrev : a ∈ d.reverse)
    (hc : assocFind d.cache o = some w) (hw : ¬ w = a) :
    d.setUnique o a =
      (false, { d with cache := (o, w) :: d.cache.filter (fun p => p.1 ≠ o) }) := by
  unfold Dict.setUnique
  rw [lruGet_of_find_some hc]
  simp [revMem, hrev, hw]

theorem setUnique_eq_cacheMiss {d : Dict} {o a : String} (hrev : a ∈ d.reverse)
    (hc : assocFind d.cache o = none) :
    d.setUnique o a = (false, d) := by
  unfold Dict.setUnique
  rw [lruGet_of_find_none hc]
  simp [revMem, hrev]

theorem setUnique_eq_diskHit {d : Dict} {o a o2 : String}
    (hrev : a ∉ d.reverse) (hf : assocFindByVal d.disk a = some o2) :
    d.setUnique o a =
      (decide (o2 = o), { d with reverse := revAdd d.reverse a }) := by
  by_cases ho : o2 = o
  · simp [Dict.setUnique, revMem, hrev, hf, ho]
  · simp [Dict.setUnique, revMem, hrev, hf, ho]

theorem setUnique_eq_fresh {d : Dict} {o a : String}
    (hrev : a ∉ d.reverse) (hf : assocFindByVal d.disk a = none) :
    d.setUnique o a = (true, d.setInternal o a) := by
  simp [Dict.setUnique, revMem, hrev, hf]

/-! ### Preservation lemmas for `Get` -/

theorem get_WF {d : Dict} {o : String} (h : dictWF d) : dictWF (d.get o).2 := by
  cases hc : assocFind d.cache o with
  | some v =>
    rw [get_eq_hit hc]
    refine ⟨h.1, ?_⟩
    intro k x hk
    rw [assocFind_front] at hk
    by_cases hko : o = k
    · rw [if_pos hko] at hk
      injection hk with hvx
      subst hvx
      rw [← hko]
      exact h.2 o v hc
    · rw [if_neg hko] at hk
      exact h.2 k x hk
  | none =>
    cases hd : assocFind d.disk o with
    | none => rw [get_eq_miss hc hd]; exact h
    | some a =>
      rw [get_eq_promote hc hd]
      refine ⟨h.1, ?_⟩
      intro k x hk
      rcases assocFind_lruAdd hk with ⟨hko, hxa⟩ | ⟨hko, hfind⟩
      · subst hko; subst hxa; exact hd
      · exact h.2 k x hfind

theorem get_mapsTo {d : Dict} {o v a : String} (hm : mapsTo d v a) :
    mapsTo (d.get o).2 v a := by
  cases hc : assocFind d.cache o with
  | some w =>
    rw [get_eq_hit hc]
    refine ⟨hm.1, ?_⟩
    intro x hx
    rw [assocFind_front] at hx
    by_cases hvo : o = v
    · rw [if_pos hvo] at hx
      injection hx with hwx
      subst hwx
      exact hm.2 w (hvo ▸ hc)
    · rw [if_neg hvo] at hx
      exact hm.2 x hx
  | none =>
    cases hd : assocFind d.disk o with
    | none => rw [get_eq_miss hc hd]; exact hm
    | some b =>
      rw [get_eq_promote hc hd]
      refine ⟨hm.1, ?_⟩
      intro x hx
      rcases assocFind_lruAdd hx with ⟨hvo, hxb⟩ | ⟨hvo, hfind⟩
      · subst hvo
        subst hxb
        rw [hm.1] at hd
        injection hd with hab
        exact hab.symm
      · exact hm.2 x hfind

theorem get_fst_of_mapsTo {d : Dict} {v a : String} (hm : mapsTo d v a) :
    (d.get v).1 = some a := by
  cases hc : assocFind d.cache v with
  | some w =>
    rw [get_eq_hit hc]
    simp [hm.2 w hc]
  | none =>
    rw [get_eq_promote hc hm.1]

theorem get_none_noMapping {d : Dict} {v : String} (h : (d.get v).1 = none) :
    assocFind d.cache v = none ∧ assocFind d.disk v = none := by
  cases hc : assocFind d.cache v with
  | some w => rw [get_eq_hit hc] at h; cases h
  | none =>
    cases hd : assocFind d.disk v with
    | some a => rw [get_eq_promote hc hd] at h; cases h
    | none => exact ⟨rfl, rfl⟩

theorem get_some_mapsTo {d : Dict} {v b : String} (hw : dictWF d)
    (h : (d.get v).1 = some b) : mapsTo (d.get v).2 v b := by
  cases hc : assocFind d.cache v with
  | some w =>
    have hdisk := hw.2 v w hc
    rw [get_eq_hit hc] at h ⊢
    injection h with hwb
    subst hwb
    refine ⟨hdisk, ?_⟩
    intro x hx
    rw [assocFind_front, if_pos rfl] at hx
    injection hx with hx2
    exact hx2.symm
  | none =>
    cases hd : assocFind d.disk v with
    | none => rw [get_eq_miss hc hd] at h; cases h
    | some a =>
      rw [get_eq_promote hc hd] at h ⊢
      injection h with hab
      subst hab
      refine ⟨hd, ?_⟩
      intro x hx
      rcases assocFind_lruAdd hx with ⟨_, hxa⟩ | ⟨hne, hfind⟩
      · exact hxa
      · rw [hc] at hfind
        cases hfind

/-! ### Preservation lemmas for `Set` -/

theorem set_WF {d : Dict} {o a : String} (h : dictWF d) : dictWF (d.set o a) := by
  unfold Dict.set Dict.setInternal
  refine ⟨assocPut_keys_nodup h.1, ?_⟩
  intro k x hk
  rcases assocFind_lruAdd hk with ⟨hko, hxa⟩ | ⟨hko, hfind⟩
  · subst hko; subst hxa
    exact assocPut_find_self _ _ _
  · rw [assocPut_find_other hko]
    exact h.2 k x hfind

theorem set_mapsTo_self (d : Dict) (o a : String) : mapsTo (d.set o a) o a := by
  unfold Dict.set Dict.setInternal
  refine ⟨assocPut_find_self _ _ _, ?_⟩
  intro x hx
  rcases assocFind_lruAdd hx with ⟨_, hxa⟩ | ⟨hne, _⟩
  · exact hxa
  · exact absurd rfl hne

theorem set_mapsTo_other {d : Dict} {o a v b : String} (hv : v ≠ o)
    (hm : mapsTo d v b) : mapsTo (d.set o a) v b := by
  unfold Dict.set Dict.setInternal
  refine ⟨by rw [assocPut_find_other hv]; exact hm.1, ?_⟩
  intro x hx
  rcases assocFind_lruAdd hx with ⟨hvo, _⟩ | ⟨_, hfind⟩
  · exact absurd hvo hv
  · exact hm.2 x hfind

/-! ### Preservation lemmas for `SetUnique` -/

theorem setUnique_WF {d : Dict} {o a : String} (h : dictWF d) :
    dictWF (d.setUnique o a).2 := by
  by_cases hrev : a ∈ d.reverse
  · cases hc : assocFind d.cache o with
    | some w =>
      have hwf2 : dictWF { d with
          cache := (o, w) :: d.cache.filter (fun p => p.1 ≠ o) } := by
        refine ⟨h.1, ?_⟩
        intro k x hk
        rw [assocFind_front] at hk
        by_cases hko : o = k
        · rw [if_pos hko] at hk
          injection hk with hwx
          subst hwx
          rw [← hko]
          exact h.2 o w hc
        · rw [if_neg hko] at hk
          exact h.2 k x hk
      by_cases hwa : w = a
      · subst hwa
        rw [setUnique_eq_hit_same hrev hc]
        exact hwf2
      · rw [setUnique_eq_hit_ne hrev hc hwa]
        exact hwf2
    | none =>
      rw [setUnique_eq_cacheMiss hrev hc]
      exact h
  · cases hf : assocFindByVal d.disk a with
    | some o2 =>
      rw [setUnique_eq_diskHit hrev hf]
      exact h
    | none =>
      rw [setUnique_eq_fresh hrev hf]
      exact set_WF h

theorem setUnique_mapsTo_other {d : Dict} {o a v b : String} (hv : v ≠ o)
    (hm : mapsTo d v b) : mapsTo (d.setUnique o a).2 v b := by
  by_cases hrev : a ∈ d.reverse
  · cases hc : assocFind d.cache o with
    | some w =>
      have hm2 : mapsTo { d with
          cache := (o, w) :: d.cache.filter (fun p => p.1 ≠ o) } v b := by
        refine ⟨hm.1, ?_⟩
        intro x hx
        rw [assocFind_front] at hx
        rw [if_neg (fun e => hv e.symm)] at hx
        exact hm.2 x hx
      by_cases hwa : w = a
      · subst hwa
        rw [setUnique_eq_hit_same hrev hc]
        exact hm2
      · rw [setUnique_eq_hit_ne hrev hc hwa]
        exact hm2
    | none =>
      rw [setUnique_eq_cacheMiss hrev hc]
      exact hm
  · cases hf : assocFindByVal d.disk a with
    | some o2 =>
      rw [setUnique_eq_diskHit hrev hf]
      exact hm
    | none =>
      rw [setUnique_eq_fresh hrev hf]
      exact set_mapsTo_other hv hm

theorem setUnique_true_mapsTo {d : Dict} {o a : String} (hw : dictWF d)
    (h : (d.setUnique o a).1 = true) : mapsTo (d.setUnique o a).2 o a := by
  by_cases hrev : a ∈ d.reverse
  · cases hc : assocFind d.cache o with
    | some w =>
      by_cases hwa : w = a
      · subst hwa
        rw [setUnique_eq_hit_same hrev hc]
        refine ⟨hw.2 o w hc, ?_⟩
        intro x hx
        rw [assocFind_front, if_pos rfl] at hx
        injection hx with hx2
        exact hx2.symm
      · rw [setUnique_eq_hit_ne hrev hc hwa] at h
        cases h
    | none =>
      rw [setUnique_eq_cacheMiss hrev hc] at h
      cases h
  · cases hf : assocFindByVal d.disk a with
    | some o2 =>
      rw [setUnique_eq_diskHit hrev hf] at h ⊢
      have ho : o2 = o := of_decide_eq_true h
      have hmem := assocFindByVal_mem d.disk a o2 hf
      rw [ho] at hmem
      have hdisk := assocFind_of_mem_nodup hmem hw.1
      refine ⟨hdisk, ?_⟩
      intro x hx
      have hx2 := hw.2 o x hx
      rw [hdisk] at hx2
      injection hx2 with hx3
      exact hx3.symm
    | none =>
      rw [setUnique_eq_fresh hrev hf]
      exact set_mapsTo_self d o a

theorem setUnique_false_state {d : Dict} {o a : String}
    (hc : assocFind d.cache o = none)
    (h : (d.setUnique o a).1 = false) :
    (d.setUnique o a).2.cache = d.cache ∧ (d.setUnique o a).2.disk = d.disk := by
  by_cases hrev : a ∈ d.reverse
  · rw [setUnique_eq_cacheMiss hrev hc]
    exact ⟨rfl, rfl⟩
  · cases hf : assocFindByVal d.disk a with
    | some o2 =>
      rw [setUnique_eq_diskHit hrev hf]
      exact ⟨rfl, rfl⟩
    | none =>
      rw [setUnique_eq_fresh hrev hf] at h
      cases h

/-! ## The column processors' per-value logic

`ColumnProcessor.Process` (scalar) and
`JSONColumnProcessor.processJSONValue` (JSON), as per-value step
functions threading the shared dictionary.  Each step also returns the
trace of dictionary calls it made.  The generator's output for the
(single) `Generate` call a step can make is passed in as `genOut`. -/

/-- A dictionary call made by a processor. -/
inductive DictOp where
  | get (o : String)
  | set (o a : String)
  | setUnique (o a : String)
deriving DecidableEq, Repr

/-- A processing error. `collision` is the scalar processor's
"failed to generate unique value after 100 attempts"; `jsonErr` is a
JSON parse/path failure; `dbErr` a database failure. -/
inductive ProcErr where
  | collision
  | jsonErr
  | dbErr
deriving DecidableEq, Repr

/-- `maxCollisionRetries` (column processor unit). -/
def maxCollisionRetries : Nat := 100

/-- The collision-retry loop: suffixes `i, i+1, …` are tried until
`SetUnique` accepts or the attempts are exhausted. -/
def retryLoop (v base : String) :
    Dict → Nat → Nat → Except ProcErr (String × Dict × List DictOp)
  | _, _, 0 => .error .collision
  | d, i, Nat.succ fuel =>
    match d.setUnique v (addUniqueSuffix base i) with
    | (true, d2) =>
      .ok (addUniqueSuffix base i, d2, [.setUnique v (addUniqueSuffix base i)])
    | (false, d2) =>
      match retryLoop v base d2 (i + 1) fuel with
      | .ok (a2, d3, ops) =>
        .ok (a2, d3, .setUnique v (addUniqueSuffix base i) :: ops)
      | .error e => .error e

/-- The scalar processor's work for one non-empty value (lines
121-154 of the column processor unit): dictionary lookup, generate on
a miss, uniqueness check with retries for unique-constrained columns,
unconditional store otherwise. -/
def scalarStep (hasUnique : Bool) (genOut : String) (d : Dict) (v : String) :
    Except ProcErr (String × Dict × List DictOp) :=
  match d.get v with
  | (some a, d2) => .ok (a, d2, [.get v])
  | (none, d2) =>
    if hasUnique then
      match d2.setUnique v genOut with
      | (true, d3) => .ok (genOut, d3, [.get v, .setUnique v genOut])
      | (false, d3) =>
        match retryLoop v genOut d3 1 maxCollisionRetries with
        | .ok (a2, d4, ops) => .ok (a2, d4, .get v :: .setUnique v genOut :: ops)
        | .error e => .error e
    else .ok (genOut, d2.set v genOut, [.get v, .set v genOut])

/-- The JSON processor's work for one string match (lines 176-187 of
`processJSONValue`): dictionary lookup, generate and unconditional
`Set` on a miss.  It cannot fail. -/
def jsonStep (genOut : String) (d : Dict) (v : String) :
    String × Dict × List DictOp :=
  match d.get v with
  | (some a, d2) => (a, d2, [.get v])
  | (none, d2) => (genOut, d2.set v genOut, [.get v, .set v genOut])

/-- Which processor handles a value occurrence. -/
inductive ColKind where
  | scalar (hasUnique : Bool)
  | json
deriving DecidableEq, Repr

/-- One value occurrence in the run: the column kind it is processed
under, the raw value, and what the generator would return for it. -/
structure WorkItem where
  kind : ColKind
  value : String
  genOut : String
deriving DecidableEq, Repr

/-- One occurrence processed against the shared dictionary. -/
def processItem (d : Dict) (it : WorkItem) : Except ProcErr (String × Dict) :=
  match it.kind with
  | .scalar hasUnique =>
    match scalarStep hasUnique it.genOut d it.value with
    | .ok (a, d2, _) => .ok (a, d2)
    | .error e => .error e
  | .json =>
    match jsonStep it.genOut d it.value with
    | (a, d2, _) => .ok (a, d2)

/-- A whole run's value occurrences, in processing order, threaded
through the shared dictionary; empty values are skipped (both
processors skip them).  Returns the emitted
`(original, anonymized)` pairs. -/
def runItems : Dict → List WorkItem →
    Except ProcErr (List (String × String) × Dict)
  | d, [] => .ok ([], d)
  | d, it :: rest =>
    if it.value = "" then runItems d rest
    else
      match processItem d it with
      | .error e => .error e
      | .ok (a, d2) =>
        match runItems d2 rest with
        | .error e => .error e
        | .ok (ps, d3) => .ok ((it.value, a) :: ps, d3)

/-! ### Step preservation lemmas -/

theorem retryLoop_WF {v base : String} :
    ∀ {fuel : Nat} {d : Dict} {i : Nat} {a2 : String} {d2 : Dict}
      {ops : List DictOp},
      dictWF d → retryLoop v base d i fuel = .ok (a2, d2, ops) → dictWF d2 := by
  intro fuel
  induction fuel with
  | zero => intro d i a2 d2 ops _ h; cases h
  | succ n ih =>
    intro d i a2 d2 ops hw h
    rcases hsu : d.setUnique v (addUniqueSuffix base i) with ⟨b, d'⟩
    have hwf2 : dictWF d' := by
      have := setUnique_WF (o := v) (a := addUniqueSuffix base i) hw
      rw [hsu] at this
      exact this
    cases b with
    | true =>
      simp only [retryLoop, hsu] at h
      injection h with h2
      injection h2 with _ h3
      injection h3 with h4
      rw [← h4]
      exact hwf2
    | false =>
      simp only [retryLoop, hsu] at h
      cases hrec : retryLoop v base d' (i + 1) n with
      | ok r =>
        rcases r with ⟨a3, d3, ops3⟩
        simp only [hrec] at h
        injection h with h2
        injection h2 with _ h3
        injection h3 with h4
        rw [← h4]
        exact ih hwf2 hrec
      | error e => simp only [hrec] at h; cases h

theorem retryLoop_mapsTo_other {v base v0 b : String} (hv : v0 ≠ v) :
    ∀ {fuel : Nat} {d : Dict} {i : Nat} {a2 : String} {d2 : Dict}
      {ops : List DictOp},
      mapsTo d v0 b → retryLoop v base d i fuel = .ok (a2, d2, ops) →
      mapsTo d2 v0 b := by
  intro fuel
  induction fuel with
  | zero => intro d i a2 d2 ops _ h; cases h
  | succ n ih =>
    intro d i a2 d2 ops hm h
    rcases hsu : d.setUnique v (addUniqueSuffix base i) with ⟨bb, d'⟩
    have hm2 : mapsTo d' v0 b := by
      have := setUnique_mapsTo_other (a := addUniqueSuffix base i) hv hm
      rw [hsu] at this
      exact this
    cases bb with
    | true =>
      simp only [retryLoop, hsu] at h
      injection h with h2
      injection h2 with _ h3
      injection h3 with h4
      rw [← h4]
      exact hm2
    | false =>
      simp only [retryLoop, hsu] at h
      cases hrec : retryLoop v base d' (i + 1) n with
      | ok r =>
        rcases r with ⟨a3, d3, ops3⟩
        simp only [hrec] at h
        injection h with h2
        injection h2 with _ h3
        injection h3 with h4
        rw [← h4]
        exact ih hm2 hrec
      | error e => simp only [hrec] at h; cases h

theorem retryLoop_true_mapsTo {v base : String} :
    ∀ {fuel : Nat} {d : Dict} {i : Nat} {a2 : String} {d2 : Dict}
      {ops : List DictOp},
      dictWF d → retryLoop v base d i fuel = .ok (a2, d2, ops) →
      mapsTo d2 v a2 := by
  intro fuel
  induction fuel with
  | zero => intro d i a2 d2 ops _ h; cases h
  | succ n ih =>
    intro d i a2 d2 ops hw h
    rcases hsu : d.setUnique v (addUniqueSuffix base i) with ⟨b, d'⟩
    cases b with
    | true =>
      simp only [retryLoop, hsu] at h
      injection h with h2
      injection h2 with ha h3
      injection h3 with h4
      have hmaps := setUnique_true_mapsTo (o := v) (a := addUniqueSuffix base i)
        hw (by rw [hsu])
      rw [hsu] at hmaps
      rw [← h4, ← ha]
      exact hmaps
    | false =>
      simp only [retryLoop, hsu] at h
      have hwf2 : dictWF d' := by
        have := setUnique_WF (o := v) (a := addUniqueSuffix base i) hw
        rw [hsu] at this
        exact this
      cases hrec : retryLoop v base d' (i + 1) n with
      | ok r =>
        rcases r with ⟨a3, d3, ops3⟩
        simp only [hrec] at h
        injection h with h2
        injection h2 with ha h3
        injection h3 with h4
        rw [← h4, ← ha]
        exact ih hwf2 hrec
      | error e => simp only [hrec] at h; cases h

theorem scalarStep_WF {hasUnique : Bool} {genOut : String} {d : Dict}
    {v a : String} {d2 : Dict} {ops : List DictOp} (hw : dictWF d)
    (h : scalarStep hasUnique genOut d v = .ok (a, d2, ops)) : dictWF d2 := by
  rcases hg : d.get v with ⟨r, dg⟩
  have hwg : dictWF dg := by
    have := get_WF (o := v) hw
    rw [hg] at this
    exact this
  cases r with
  | some b =>
    simp only [scalarStep, hg] at h
    injection h with h2
    injection h2 with _ h3
    injection h3 with h4
    rw [← h4]
    exact hwg
  | none =>
    simp only [scalarStep, hg] at h
    cases hasUnique with
    | false =>
      simp only [if_false, Bool.false_eq_true] at h
      injection h with h2
      injection h2 with _ h3
      injection h3 with h4
      rw [← h4]
      exact set_WF hwg
    | true =>
      simp only [if_true] at h
      rcases hsu : dg.setUnique v genOut with ⟨b, d3⟩
      have hwf3 : dictWF d3 := by
        have := setUnique_WF (o := v) (a := genOut) hwg
        rw [hsu] at this
        exact this
      cases b with
      | true =>
        simp only [hsu] at h
        injection h with h2
        injection h2 with _ h3
        injection h3 with h4
        rw [← h4]
        exact hwf3
      | false =>
        simp only [hsu] at h
        cases hrec : retryLoop v genOut d3 1 maxCollisionRetries with
        | ok r2 =>
          rcases r2 with ⟨a4, d4, ops4⟩
          simp only [hrec] at h
          injection h with h2
          injection h2 with _ h3
          injection h3 with h4
          rw [← h4]
          exact retryLoop_WF hwf3 hrec
        | error e => simp only [hrec] at h; cases h

theorem scalarStep_mapsTo_other {hasUnique : Bool} {genOut : String} {d : Dict}
    {v v0 b0 a : String} {d2 : Dict} {ops : List DictOp} (hv : v0 ≠ v)
    (hw : dictWF d) (hm : mapsTo d v0 b0)
    (h : scalarStep hasUnique genOut d v = .ok (a, d2, ops)) :
    mapsTo d2 v0 b0 := by
  rcases hg : d.get v with ⟨r, dg⟩
  have hwg : dictWF dg := by
    have := get_WF (o := v) hw
    rw [hg] at this
    exact this
  have hmg : mapsTo dg v0 b0 := by
    have := get_mapsTo (o := v) hm
    rw [hg] at this
    exact this
  cases r with
  | some b =>
    simp only [scalarStep, hg] at h
    injection h with h2
    injection h2 with _ h3
    injection h3 with h4
    rw [← h4]
    exact hmg
  | none =>
    simp only [scalarStep, hg] at h
    cases hasUnique with
    | false =>
      simp only [if_false, Bool.false_eq_true] at h
      injection h with h2
      injection h2 with _ h3
      injection h3 with h4
      rw [← h4]
      exact set_mapsTo_other hv hmg
    | true =>
      simp only [if_true] at h
      rcases hsu : dg.setUnique v genOut with ⟨b, d3⟩
      have hm3 : mapsTo d3 v0 b0 := by
        have := setUnique_mapsTo_other (a := genOut) hv hmg
        rw [hsu] at this
        exact this
      cases b with
      | true =>
        simp only [hsu] at h
        injection h with h2
        injection h2 with _ h3
        injection h3 with h4
        rw [← h4]
        exact hm3
      | false =>
        simp only [hsu] at h
        cases hrec : retryLoop v genOut d3 1 maxCollisionRetries with
        | ok r2 =>
          rcases r2 with ⟨a4, d4, ops4⟩
          simp only [hrec] at h
          injection h with h2
          injection h2 with _ h3
          injection h3 with h4
          rw [← h4]
          exact retryLoop_mapsTo_other hv hm3 hrec
        | error e => simp only [hrec] at h; cases h

theorem scalarStep_result_mapsTo {hasUnique : Bool} {genOut : String}
    {d : Dict} {v a : String} {d2 : Dict} {ops : List DictOp} (hw : dictWF d)
    (h : scalarStep hasUnique genOut d v = .ok (a, d2, ops)) :
    mapsTo d2 v a := by
  rcases hg : d.get v with ⟨r, dg⟩
  have hwg : dictWF dg := by
    have := get_WF (o := v) hw
    rw [hg] at this
    exact this
  cases r with
  | some b =>
    simp only [scalarStep, hg] at h
    injection h with h2
    injection h2 with ha h3
    injection h3 with h4
    have hms := get_some_mapsTo hw (by rw [hg] : (d.get v).1 = some b)
    rw [hg] at hms
    rw [← h4, ← ha]
    exact hms
  | none =>
    simp only [scalarStep, hg] at h
    cases hasUnique with
    | false =>
      simp only [if_false, Bool.false_eq_true] at h
      injection h with h2
      injection h2 with ha h3
      injection h3 with h4
      rw [← h4, ← ha]
      exact set_mapsTo_self dg v genOut
    | true =>
      simp only [if_true] at h
      rcases hsu : dg.setUnique v genOut with ⟨b, d3⟩
      cases b with
      | true =>
        simp only [hsu] at h
        injection h with h2
        injection h2 with ha h3
        injection h3 with h4
        have hms := setUnique_true_mapsTo (o := v) (a := genOut) hwg
          (by rw [hsu])
        rw [hsu] at hms
        rw [← h4, ← ha]
        exact hms
      | false =>
        simp only [hsu] at h
        have hwf3 : dictWF d3 := by
          have := setUnique_WF (o := v) (a := genOut) hwg
          rw [hsu] at this
          exact this
        cases hrec : retryLoop v genOut d3 1 maxCollisionRetries with
        | ok r2 =>
          rcases r2 with ⟨a4, d4, ops4⟩
          simp only [hrec] at h
          injection h with h2
          injection h2 with ha h3
          injection h3 with h4
          rw [← h4, ← ha]
          exact retryLoop_true_mapsTo hwf3 hrec
        | error e => simp only [hrec] at h; cases h

theorem jsonStep_facts {genOut : String} {d : Dict} {v : String}
    (hw : dictWF d) :
    dictWF (jsonStep genOut d v).2.1 ∧
    mapsTo (jsonStep genOut d v).2.1 v (jsonStep genOut d v).1 ∧
    (∀ v0 b0, v0 ≠ v → mapsTo d v0 b0 → mapsTo (jsonStep genOut d v).2.1 v0 b0) := by
  rcases hg : d.get v with ⟨r, dg⟩
  have hwg : dictWF dg := by
    have := get_WF (o := v) hw
    rw [hg] at this
    exact this
  cases r with
  | some b =>
    have hms := get_some_mapsTo hw (by rw [hg] : (d.get v).1 = some b)
    rw [hg] at hms
    simp only [jsonStep, hg]
    refine ⟨hwg, hms, ?_⟩
    intro v0 b0 hv hm
    have := get_mapsTo (o := v) hm
    rw [hg] at this
    exact this
  | none =>
    simp only [jsonStep, hg]
    refine ⟨set_WF hwg, set_mapsTo_self dg v genOut, ?_⟩
    intro v0 b0 hv hm
    have hmg : mapsTo dg v0 b0 := by
      have := get_mapsTo (o := v) hm
      rw [hg] at this
      exact this
    exact set_mapsTo_other hv hmg

/-! ### Run-level preservation -/

theorem processItem_WF {d : Dict} {it : WorkItem} {a : String} {d2 : Dict}
    (hw : dictWF d) (h : processItem d it = .ok (a, d2)) : dictWF d2 := by
  cases hk : it.kind with
  | scalar hasUnique =>
    simp only [processItem, hk] at h
    cases hs : scalarStep hasUnique it.genOut d it.value with
    | ok r =>
      rcases r with ⟨a3, d3, ops3⟩
      simp only [hs] at h
      injection h with h2
      injection h2 with _ h3
      rw [← h3]
      exact scalarStep_WF hw hs
    | error e => simp only [hs] at h; cases h
  | json =>
    simp only [processItem, hk] at h
    injection h with h2
    injection h2 with _ h3
    rw [← h3]
    exact (jsonStep_facts hw).1

theorem processItem_result_mapsTo {d : Dict} {it : WorkItem} {a : String}
    {d2 : Dict} (hw : dictWF d) (h : processItem d it = .ok (a, d2)) :
    mapsTo d2 it.value a := by
  cases hk : it.kind with
  | scalar hasUnique =>
    simp only [processItem, hk] at h
    cases hs : scalarStep hasUnique it.genOut d it.value with
    | ok r =>
      rcases r with ⟨a3, d3, ops3⟩
      simp only [hs] at h
      injection h with h2
      injection h2 with ha h3
      rw [← h3, ← ha]
      exact scalarStep_result_mapsTo hw hs
    | error e => simp only [hs] at h; cases h
  | json =>
    simp only [processItem, hk] at h
    injection h with h2
    injection h2 with ha h3
    rw [← h3, ← ha]
    exact (jsonStep_facts hw).2.1

theorem processItem_mapsTo {d : Dict} {it : WorkItem} {a v0 b0 : String}
    {d2 : Dict} (hw : dictWF d) (hm : mapsTo d v0 b0)
    (h : processItem d it = .ok (a, d2)) : mapsTo d2 v0 b0 := by
  by_cases hv : v0 = it.value
  · subst hv
    have hres := processItem_result_mapsTo hw h
    -- the step's own result is the stored mapping; uniqueness of the
    -- disk binding forces it to coincide with the prior one
    have hfst : a = b0 := by
      cases hk : it.kind with
      | scalar hasUnique =>
        simp only [processItem, hk] at h
        rcases hg : d.get it.value with ⟨r, dg⟩
        have hsome := get_fst_of_mapsTo hm
        rw [hg] at hsome
        cases r with
        | none => cases hsome
        | some b =>
          injection hsome with hb
          subst hb
          simp only [scalarStep, hg] at h
          injection h with h2
          injection h2 with ha _
          exact ha.symm
      | json =>
        simp only [processItem, hk] at h
        rcases hg : d.get it.value with ⟨r, dg⟩
        have hsome := get_fst_of_mapsTo hm
        rw [hg] at hsome
        cases r with
        | none => cases hsome
        | some b =>
          injection hsome with hb
          subst hb
          simp only [jsonStep, hg] at h
          injection h with h2
          injection h2 with ha _
          exact ha.symm
    rw [← hfst]
    exact hres
  · cases hk : it.kind with
    | scalar hasUnique =>
      simp only [processItem, hk] at h
      cases hs : scalarStep hasUnique it.genOut d it.value with
      | ok r =>
        rcases r with ⟨a3, d3, ops3⟩
        simp only [hs] at h
        injection h with h2
        injection h2 with _ h3
        rw [← h3]
        exact scalarStep_mapsTo_other hv hw hm hs
      | error e => simp only [hs] at h; cases h
    | json =>
      simp only [processItem, hk] at h
      injection h with h2
      injection h2 with _ h3
      rw [← h3]
      exact (jsonStep_facts hw).2.2 v0 b0 hv hm

theorem runItems_WF_mapsTo :
    ∀ {items : List WorkItem} {d : Dict} {ps : List (String × String)}
      {d1 : Dict},
      dictWF d → runItems d items = .ok (ps, d1) →
      dictWF d1 ∧
      (∀ v0 b0, mapsTo d v0 b0 → mapsTo d1 v0 b0) ∧
      (∀ p ∈ ps, mapsTo d1 p.1 p.2) := by
  intro items
  induction items with
  | nil =>
    intro d ps d1 hw h
    simp only [runItems] at h
    injection h with h2
    injection h2 with hps hd
    rw [← hd]
    refine ⟨hw, fun v0 b0 hm => hm, ?_⟩
    intro p hp
    rw [← hps] at hp
    cases hp
  | cons it rest ih =>
    intro d ps d1 hw h
    simp only [runItems] at h
    by_cases hemp : it.value = ""
    · rw [if_pos hemp] at h
      exact ih hw h
    · rw [if_neg hemp] at h
      cases hpi : processItem d it with
      | error e => simp only [hpi] at h; cases h
      | ok r =>
        rcases r with ⟨a, d2⟩
        simp only [hpi] at h
        have hw2 := processItem_WF hw hpi
        cases hrun : runItems d2 rest with
        | error e => simp only [hrun] at h; cases h
        | ok r2 =>
          rcases r2 with ⟨ps2, d3⟩
          simp only [hrun] at h
          injection h with h2
          injection h2 with hps hd
          obtain ⟨hw3, hpres, hpairs⟩ := ih hw2 hrun
          subst hd
          refine ⟨hw3, ?_, ?_⟩
          · intro v0 b0 hm
            exact hpres v0 b0 (processItem_mapsTo hw hm hpi)
          · intro p hp
            rw [← hps] at hp
            rcases List.mem_cons.mp hp with h1 | h1
            · subst h1
              exact hpres it.value a (processItem_result_mapsTo hw hpi)
            · exact hpairs p h1

/-- C2: within one run, the shared two-tier dictionary makes the
anonymization consistent: whenever `runItems` succeeds, any two emitted
pairs for the same non-empty original value carry the same anonymized
value — across scalar and JSON columns, unique-constrained or not —
and every emitted pair is durably stored in the dictionary's disk tier
(write-through), where `Dictionary.Get` retrieves it. -/
theorem run_shared_dictionary_determinism (items : List WorkItem) (d0 : Dict)
    (hwf : dictWF d0) (ps : List (String × String)) (d1 : Dict)
    (h : runItems d0 items = .ok (ps, d1)) :
    (∀ v a a2, v ≠ "" → (v, a) ∈ ps → (v, a2) ∈ ps → a = a2) ∧
    (∀ v a, (v, a) ∈ ps → assocFind d1.disk v = some a) := by
  obtain ⟨_, _, hpairs⟩ := runItems_WF_mapsTo hwf h
  constructor
  · intro v a a2 _ h1 h2
    have m1 := hpairs _ h1
    have m2 := hpairs _ h2
    have e1 : assocFind d1.disk v = some a := m1.1
    have e2 : assocFind d1.disk v = some a2 := m2.1
    rw [e1] at e2
    injection e2
  · intro v a h1
    exact (hpairs _ h1).1

/-- C2 (witness): the same value `john@x.com` processed first by a
unique-constrained scalar column and then by a JSON column receives the
same anonymized value, which is stored on the disk tier. -/
theorem run_shared_dictionary_determinism_witness :
    dictWF (Dict.empty 2) ∧
    ((∀ v a a2, v ≠ "" →
        (v, a) ∈ [("john@x.com", "gen@x.com"), ("john@x.com", "gen@x.com")] →
        (v, a2) ∈ [("john@x.com", "gen@x.com"), ("john@x.com", "gen@x.com")] →
        a = a2) ∧
     (∀ v a,
        (v, a) ∈ [("john@x.com", "gen@x.com"), ("john@x.com", "gen@x.com")] →
        assocFind (⟨2, [("john@x.com", "gen@x.com")], ["gen@x.com"],
          [("john@x.com", "gen@x.com")]⟩ : Dict).disk v = some a)) :=
  have hwf : dictWF (Dict.empty 2) :=
    ⟨List.nodup_nil, fun k x hx => by simp [Dict.empty, assocFind] at hx⟩
  ⟨hwf,
   run_shared_dictionary_determinism
     [⟨.scalar true, "john@x.com", "gen@x.com"⟩,
      ⟨.json, "john@x.com", "other@x.com"⟩]
     (Dict.empty 2) hwf
     [("john@x.com", "gen@x.com"), ("john@x.com", "gen@x.com")]
     (⟨2, [("john@x.com", "gen@x.com")], ["gen@x.com"],
       [("john@x.com", "gen@x.com")]⟩ : Dict)
     (by rfl)⟩

/-! ## Claim C10: `JSONColumnProcessor.processJSONValue`

The full per-row JSON routine (lines 150-201): extraction (external
`ExtractAndCollect`, supplied as an oracle), the match loop building
the replacement map through the dictionary, and `Replace` (external,
supplied as an oracle).  `none` from an oracle models its error. -/

/-- One extracted match: concrete path and string value. -/
structure JMatch where
  mpath : String
  mvalue : String
deriving DecidableEq, Repr

/-- The inner match loop for one path's mlist: each match routed
through the dictionary with `jsonStep`, accumulating the replacement
map and the anonymized-value count. -/
def jsonMatchFold (gen : String → String) :
    Dict → List JMatch → List (String × String) → Nat →
    Dict × List (String × String) × Nat × List DictOp
  | d, [], reps, n => (d, reps, n, [])
  | d, m :: rest, reps, n =>
    let r := jsonStep (gen m.mvalue) d m.mvalue
    let next := jsonMatchFold gen r.2.1 rest (assocPut reps m.mpath r.1) (n + 1)
    (next.1, next.2.1, next.2.2.1, r.2.2 ++ next.2.2.2)

/-- The outer loop over `allMatches` (path ↦ mlist); a path with no
registered generator is skipped. -/
def jsonAllFold (gens : String → Option (String → String)) :
    Dict → List (String × List JMatch) → List (String × String) → Nat →
    Dict × List (String × String) × Nat × List DictOp
  | d, [], reps, n => (d, reps, n, [])
  | d, (pathExpr, mlist) :: rest, reps, n =>
    match gens pathExpr with
    | none => jsonAllFold gens d rest reps n
    | some gen =>
      let r := jsonMatchFold gen d mlist reps n
      let next := jsonAllFold gens r.1 rest r.2.1 r.2.2.1
      (next.1, next.2.1, next.2.2.1, r.2.2.2 ++ next.2.2.2)

/-- `processJSONValue`: extract, anonymize each match through the
dictionary, apply the replacements.  Besides the result it returns the
final dictionary and the trace of dictionary calls. -/
def processJSONValue (jsonData : String)
    (gens : String → Option (String → String))
    (extractRes : Option (List (String × List JMatch)))
    (replaceRes : List (String × String) → Option String)
    (d : Dict) : Except ProcErr (String × Nat) × Dict × List DictOp :=
  match extractRes with
  | none => (.error .jsonErr, d, [])
  | some allMatches =>
    if allMatches.isEmpty then (.ok (jsonData, 0), d, [])
    else
      let folded := jsonAllFold gens d allMatches [] 0
      if folded.2.1.isEmpty then (.ok (jsonData, 0), folded.1, folded.2.2.2)
      else
        match replaceRes folded.2.1 with
        | none => (.error .jsonErr, folded.1, folded.2.2.2)
        | some s => (.ok (s, folded.2.2.1), folded.1, folded.2.2.2)

/-- The shape of an op trace that never touches `SetUnique`. -/
def getSetOnly (ops : List DictOp) : Prop :=
  ∀ op ∈ ops, (∃ v, op = DictOp.get v) ∨ (∃ v a, op = DictOp.set v a)

theorem jsonStep_ops (gen : String) (d : Dict) (v : String) :
    getSetOnly (jsonStep gen d v).2.2 := by
  intro op hop
  rcases hg : d.get v with ⟨r, dg⟩
  cases r with
  | some b =>
    simp only [jsonStep, hg] at hop
    rcases List.mem_singleton.mp hop with h
    exact Or.inl ⟨v, h⟩
  | none =>
    simp only [jsonStep, hg] at hop
    rcases List.mem_cons.mp hop with h | h
    · exact Or.inl ⟨v, h⟩
    · rcases List.mem_singleton.mp h with h2
      exact Or.inr ⟨v, gen, h2⟩

theorem jsonMatchFold_ops (gen : String → String) :
    ∀ (mlist : List JMatch) (d : Dict) (reps : List (String × String))
      (n : Nat), getSetOnly (jsonMatchFold gen d mlist reps n).2.2.2 := by
  intro mlist
  induction mlist with
  | nil => intro d reps n op hop; simp only [jsonMatchFold] at hop; cases hop
  | cons m rest ih =>
    intro d reps n op hop
    simp only [jsonMatchFold] at hop
    rcases List.mem_append.mp hop with h | h
    · exact jsonStep_ops (gen m.mvalue) d m.mvalue op h
    · exact ih _ _ _ op h

theorem jsonAllFold_ops (gens : String → Option (String → String)) :
    ∀ (allMatches : List (String × List JMatch)) (d : Dict)
      (reps : List (String × String)) (n : Nat),
      getSetOnly (jsonAllFold gens d allMatches reps n).2.2.2 := by
  intro allMatches
  induction allMatches with
  | nil => intro d reps n op hop; simp only [jsonAllFold] at hop; cases hop
  | cons pm rest ih =>
    intro d reps n op hop
    obtain ⟨pathExpr, mlist⟩ := pm
    simp only [jsonAllFold] at hop
    cases hgen : gens pathExpr with
    | none =>
      rw [hgen] at hop
      exact ih _ _ _ op hop
    | some gen =>
      rw [hgen] at hop
      rcases List.mem_append.mp hop with h | h
      · exact jsonMatchFold_ops gen mlist d reps n op h
      · exact ih _ _ _ op h

/-- C10: the JSON column processor's per-value routine makes only
`Get` and `Set` dictionary calls — never `SetUnique`, so the
uniqueness check and its collision-retry loop are unreachable — and
whenever it fails, the error is a JSON extraction/replacement failure,
never the uniqueness-collision error of the scalar processor. -/
theorem json_processor_never_collides (jsonData : String)
    (gens : String → Option (String → String))
    (extractRes : Option (List (String × List JMatch)))
    (replaceRes : List (String × String) → Option String) (d : Dict) :
    getSetOnly (processJSONValue jsonData gens extractRes replaceRes d).2.2 ∧
    (∀ e, (processJSONValue jsonData gens extractRes replaceRes d).1 =
        .error e → e = ProcErr.jsonErr) := by
  cases hex : extractRes with
  | none =>
    constructor
    · intro op hop
      simp only [processJSONValue] at hop
      cases hop
    · intro e he
      simp only [processJSONValue] at he
      injection he with h2
      exact h2.symm
  | some allMatches =>
    by_cases hemp : allMatches.isEmpty
    · constructor
      · intro op hop
        simp only [processJSONValue, hemp, if_true] at hop
        cases hop
      · intro e he
        simp only [processJSONValue, hemp, if_true] at he
        cases he
    · have hops := jsonAllFold_ops gens allMatches d [] 0
      by_cases hreps : (jsonAllFold gens d allMatches [] 0).2.1.isEmpty
      · constructor
        · intro op hop
          simp only [processJSONValue, hemp, if_false, hreps, if_true] at hop
          exact hops op hop
        · intro e he
          simp only [processJSONValue, hemp, if_false, hreps, if_true] at he
          cases he
      · cases hrep : replaceRes (jsonAllFold gens d allMatches [] 0).2.1 with
        | none =>
          constructor
          · intro op hop
            simp only [processJSONValue, hemp, if_false, hreps, hrep] at hop
            exact hops op hop
          · intro e he
            simp only [processJSONValue, hemp, if_false, hreps, hrep] at he
            injection he with h2
            exact h2.symm
        | some s =>
          constructor
          · intro op hop
            simp only [processJSONValue, hemp, if_false, hreps, hrep] at hop
            exact hops op hop
          · intro e he
            simp only [processJSONValue, hemp, if_false, hreps, hrep] at he
            cases he

/-- C10 (witness): one extracted match, routed through `Get`/`Set`
only, a successful replacement, and errors confined to JSON errors. -/
theorem json_processor_never_collides_witness :
    getSetOnly (processJSONValue "data"
      (fun _ => some (fun _ => "g"))
      (some [("$.a", [⟨"$.a", "v"⟩])])
      (fun _ => some "out") (Dict.empty 2)).2.2 ∧
    (∀ e, (processJSONValue "data"
      (fun _ => some (fun _ => "g"))
      (some [("$.a", [⟨"$.a", "v"⟩])])
      (fun _ => some "out") (Dict.empty 2)).1 = .error e →
        e = ProcErr.jsonErr) :=
  json_processor_never_collides "data" (fun _ => some (fun _ => "g"))
    (some [("$.a", [⟨"$.a", "v"⟩])]) (fun _ => some "out") (Dict.empty 2)

/-! ## The foreign-key analyzer (`internal/database/fkanalyzer.go`)

`GetCascadeTargets` and `GetProcessingOrder` over the task columns and
the foreign keys returned by `Analyze` (the `pg_constraint` query,
supplied as data).  Go maps keyed by `ColumnRef.String()` are modelled
by key lists; the randomized iteration order of
`for key := range colSet` is an explicit `enum` parameter. -/

/-- `errors.ColumnRef`. -/
structure ColRef where
  schema : String
  table : String
  column : String
deriving DecidableEq, Repr

/-- `ColumnRef.String()`: `schema.table.column`. -/
def ColRef.key (c : ColRef) : String :=
  c.schema ++ "." ++ c.table ++ "." ++ c.column

/-- `database.ForeignKey`. -/
structure ForeignKey where
  constraintName : String
  parentSchema : String
  parentTable : String
  parentColumn : String
  childSchema : String
  childTable : String
  childColumn : String
  onUpdate : String
  onDelete : String
deriving DecidableEq, Repr

def ForeignKey.parentRef (fk : ForeignKey) : ColRef :=
  ⟨fk.parentSchema, fk.parentTable, fk.parentColumn⟩

def ForeignKey.childRef (fk : ForeignKey) : ColRef :=
  ⟨fk.childSchema, fk.childTable, fk.childColumn⟩

/-- `GetCascadeTargets` (lines 136-174): children of CASCADE-update
foreign keys whose parent column is among the updated columns. -/
def getCascadeTargets (columns : List ColRef) (fks : List ForeignKey) :
    List ColRef :=
  (fks.filter (fun fk => fk.onUpdate = "CASCADE" ∧
      fk.parentRef.key ∈ columns.map ColRef.key)).map ForeignKey.childRef

/-- The dependency map `deps` (lines 188-221): the parents a key must
wait for — CASCADE edges with both ends in the column set, in `fks`
order. -/
def depsOf (columns : List ColRef) (fks : List ForeignKey) (k : String) :
    List String :=
  (fks.filter (fun fk => fk.onUpdate = "CASCADE" ∧
      fk.parentRef.key ∈ columns.map ColRef.key ∧
      fk.childRef.key ∈ columns.map ColRef.key ∧
      fk.childRef.key = k)).map (fun fk => fk.parentRef.key)

/-- `colSet[key]`: the column stored for a key (the last task with that
key wins, matching map insertion order). -/
def lookupCol (columns : List ColRef) (k : String) : ColRef :=
  match columns.reverse.find? (fun c => c.key = k) with
  | some c => c
  | none => ⟨"", "", ""⟩

/-- The `for _, dep := range deps[key]` loop of `visit`, threading the
result list through a caller-supplied visit function. -/
def visitDeps (f : List String → List String → String → Except String (List String)) :
    List String → List String → List String → Except String (List String)
  | _, res, [] => .ok res
  | temp, res, dep :: rest =>
    match f temp res dep with
    | .error e => .error e
    | .ok res2 => visitDeps f temp res2 rest

/-- The recursive `visit` (lines 228-247): cycle check on `temp`,
memoization on the result list, post-order append.  The fuel bounds the
recursion depth; it is set above the deepest possible chain, so the
"recursion limit" branch is unreachable (`visit_fuel_unreachable`). -/
def visit (columns : List ColRef) (fks : List ForeignKey) :
    Nat → List String → List String → String → Except String (List String)
  | 0, _, _, _ => .error "recursion limit"
  | Nat.succ fuel, temp, res, key =>
    if key ∈ temp then .error ("circular dependency detected at " ++ key)
    else if key ∈ res then .ok res
    else
      match visitDeps (fun t r k => visit columns fks fuel t r k)
          (key :: temp) res (depsOf columns fks key) with
      | .error e => .error e
      | .ok res2 => .ok (res2 ++ [key])

/-- `GetProcessingOrder` (lines 176-257): visit every key of the column
set in the map-iteration order `enum`, then map the ordered keys back
to columns. -/
def getProcessingOrder (columns : List ColRef) (fks : List ForeignKey)
    (enum : List String) : Except String (List ColRef) :=
  match visitDeps
      (fun t r k =>
        visit columns fks ((columns.map ColRef.key).dedup.length + 1) t r k)
      [] [] enum with
  | .error e => .error e
  | .ok res => .ok (res.map (lookupCol columns))

/-! ### Soundness of the depth-first topological order -/

/-- Every listed key appears after all the parents it depends on. -/
def topoOK (columns : List ColRef) (fks : List ForeignKey)
    (res : List String) : Prop :=
  ∀ c ∈ res, ∀ p ∈ depsOf columns fks c,
    p ∈ res ∧ res.indexOf p < res.indexOf c

/-- The contract a visit function must satisfy on success. -/
def VisitSpec (columns : List ColRef) (fks : List ForeignKey)
    (f : List String → List String → String → Except String (List String)) :
    Prop :=
  ∀ temp res key res2, f temp res key = .ok res2 →
    (∃ Δ, res2 = res ++ Δ ∧ ∀ t ∈ temp, t ∉ Δ) ∧
    key ∈ res2 ∧
    (res.Nodup → res2.Nodup) ∧
    (topoOK columns fks res → topoOK columns fks res2) ∧
    (∀ x ∈ res2, x ∈ res ∨ x = key ∨ x ∈ columns.map ColRef.key)

theorem depsOf_subset_keys {columns : List ColRef} {fks : List ForeignKey}
    {k p : String} (h : p ∈ depsOf columns fks k) :
    p ∈ columns.map ColRef.key := by
  unfold depsOf at h
  rcases List.mem_map.mp h with ⟨fk, hfk, hp⟩
  have := List.of_mem_filter hfk
  simp only [decide_eq_true_eq] at this
  rw [← hp]
  exact this.2.1

theorem visitDeps_ok_spec {columns : List ColRef} {fks : List ForeignKey}
    {f : List String → List String → String → Except String (List String)}
    (hf : VisitSpec columns fks f) :
    ∀ (deps temp res resMid : List String),
      visitDeps f temp res deps = .ok resMid →
      (∃ Δ, resMid = res ++ Δ ∧ ∀ t ∈ temp, t ∉ Δ) ∧
      (∀ dep ∈ deps, dep ∈ resMid) ∧
      (res.Nodup → resMid.Nodup) ∧
      (topoOK columns fks res → topoOK columns fks resMid) ∧
      (∀ x ∈ resMid, x ∈ res ∨ x ∈ deps ∨ x ∈ columns.map ColRef.key) := by
  intro deps
  induction deps with
  | nil =>
    intro temp res resMid h
    simp only [visitDeps] at h
    injection h with h2
    subst h2
    refine ⟨⟨[], by simp, by simp⟩, ?_, fun hn => hn, fun ht => ht, ?_⟩
    · intro dep hdep; cases hdep
    · intro x hx; exact Or.inl hx
  | cons dep rest ih =>
    intro temp res resMid h
    simp only [visitDeps] at h
    cases hv : f temp res dep with
    | error e => rw [hv] at h; cases h
    | ok r2 =>
      rw [hv] at h
      obtain ⟨⟨Δ1, he1, ha1⟩, hmem1, hnd1, ht1, hsub1⟩ := hf temp res dep r2 hv
      obtain ⟨⟨Δ2, he2, ha2⟩, hmem2, hnd2, ht2, hsub2⟩ := ih temp r2 resMid h
      refine ⟨⟨Δ1 ++ Δ2, by rw [he2, he1, List.append_assoc], ?_⟩, ?_, ?_, ?_, ?_⟩
      · intro t ht
        rw [List.mem_append]
        push_neg
        exact ⟨ha1 t ht, ha2 t ht⟩
      · intro d hd
        rcases List.mem_cons.mp hd with h1 | h1
        · subst h1
          rw [he2]
          exact List.mem_append_left _ hmem1
        · exact hmem2 d h1
      · intro hn
        exact hnd2 (hnd1 hn)
      · intro ht
        exact ht2 (ht1 ht)
      · intro x hx
        rcases hsub2 x hx with h1 | h1 | h1
        · rcases hsub1 x h1 with h2 | h2 | h2
          · exact Or.inl h2
          · exact Or.inr (Or.inl (h2 ▸ List.mem_cons_self _ _))
          · exact Or.inr (Or.inr h2)
        · exact Or.inr (Or.inl (List.mem_cons_of_mem _ h1))
        · exact Or.inr (Or.inr h1)

theorem visit_ok_spec (columns : List ColRef) (fks : List ForeignKey) :
    ∀ (fuel : Nat), VisitSpec columns fks (visit columns fks fuel) := by
  intro fuel
  induction fuel with
  | zero =>
    intro temp res key res2 h
    cases h
  | succ n ih =>
    intro temp res key res2 h
    simp only [visit] at h
    by_cases htemp : key ∈ temp
    · rw [if_pos htemp] at h
      cases h
    · rw [if_neg htemp] at h
      by_cases hres : key ∈ res
      · rw [if_pos hres] at h
        injection h with h2
        subst h2
        refine ⟨⟨[], by simp, by simp⟩, hres, fun hn => hn, fun ht => ht, ?_⟩
        intro x hx; exact Or.inl hx
      · rw [if_neg hres] at h
        cases hd : visitDeps (fun t r k => visit columns fks n t r k)
            (key :: temp) res (depsOf columns fks key) with
        | error e => rw [hd] at h; cases h
        | ok resMid =>
          rw [hd] at h
          injection h with h2
          obtain ⟨⟨Δm, hem, ham⟩, hmem, hnd, htopo, hsub⟩ :=
            visitDeps_ok_spec ih _ _ _ _ hd
          have hkey_not_mid : key ∉ resMid := by
            rw [hem]
            rw [List.mem_append]
            push_neg
            exact ⟨hres, ham key (List.mem_cons_self _ _)⟩
          subst h2
          refine ⟨⟨Δm ++ [key], by rw [hem, List.append_assoc], ?_⟩, ?_, ?_, ?_, ?_⟩
          · intro t ht
            rw [List.mem_append]
            push_neg
            refine ⟨ham t (List.mem_cons_of_mem _ ht), ?_⟩
            intro hk
            rcases List.mem_singleton.mp hk with h3
            subst h3
            exact htemp ht
          · exact List.mem_append_right _ (List.mem_singleton.mpr rfl)
          · intro hn
            rw [List.nodup_append]
            exact ⟨hnd hn, List.nodup_singleton _,
              fun x hx hk => hkey_not_mid ((List.mem_singleton.mp hk) ▸ hx)⟩
          · intro ht
            have htm := htopo ht
            intro c hc p hp
            rcases List.mem_append.mp hc with h1 | h1
            · obtain ⟨hpm, hidx⟩ := htm c h1 p hp
              refine ⟨List.mem_append_left _ hpm, ?_⟩
              rw [List.indexOf_append_of_mem hpm, List.indexOf_append_of_mem h1]
              exact hidx
            · rcases List.mem_singleton.mp h1 with h2
              subst h2
              have hpm : p ∈ resMid := hmem p hp
              refine ⟨List.mem_append_left _ hpm, ?_⟩
              rw [List.indexOf_append_of_mem hpm,
                List.indexOf_append_of_not_mem hkey_not_mid]
              simp only [List.indexOf_cons_self, Nat.add_zero]
              exact List.indexOf_lt_length.mpr hpm
          · intro x hx
            rcases List.mem_append.mp hx with h1 | h1
            · rcases hsub x h1 with h2 | h2 | h2
              · exact Or.inl h2
              · exact Or.inr (Or.inr (depsOf_subset_keys h2))
              · exact Or.inr (Or.inr h2)
            · exact Or.inr (Or.inl (List.mem_singleton.mp h1))

/-! ## The orchestrator (`Anonymizer.Run`)

The whole-run control flow, modelled as a trace of transaction-scoped
events over an oracle supplying each database-dependent step's
outcome.  The deferred `tx.Rollback()` (run on every exit where
`committed` is still false) appends the `rollbackTx` event. -/

/-- The isolation level requested by `Connector.BeginTx`
(connection.go lines 88-90). -/
inductive IsolationLevel where
  | serializable
  | readCommitted
deriving DecidableEq, Repr

/-- `BeginTx` passes `sql.LevelSerializable`. -/
def beginTxIsolation : IsolationLevel := .serializable

/-- Observable events of a run. `preload vs` would be the
`PreloadUsedValues`/`GetDistinctValues` step; it is part of the event
vocabulary so its absence is expressible. -/
inductive RunEvent where
  | beginTx
  | preload (vs : List String)
  | processCol (c : ColRef)
  | commitTx
  | rollbackTx
deriving DecidableEq, Repr

/-- The outcome of every fallible step `Run` performs, in program
order. -/
structure RunOracle where
  connectOk : Bool
  columnRefs : Except String (List ColRef)
  validateMissing : Except String (List ColRef)
  order : Except String (List ColRef)
  cascades : Except String (List ColRef)
  beginOk : Bool
  hasConfig : ColRef → Bool
  dataType : ColRef → Except String String
  processCol : ColRef → Except String Unit
  commitOk : Bool

/-- The per-column loop of `Run` (lines 165-232), including the final
commit and the deferred rollback on error. -/
def runCols (o : RunOracle) (casc : List ColRef) :
    List ColRef → List RunEvent → Except String Unit × List RunEvent
  | [], evs =>
    if o.commitOk then (.ok (), evs ++ [.commitTx])
    else (.error "commit failed", evs ++ [.rollbackTx])
  | c :: rest, evs =>
    if c.key ∈ casc.map ColRef.key then runCols o casc rest evs
    else if ¬ o.hasConfig c then (.error "no config", evs ++ [.rollbackTx])
    else
      match o.dataType c with
      | .error e => (.error e, evs ++ [.rollbackTx])
      | .ok _ =>
        match o.processCol c with
        | .error e => (.error e, evs ++ [.rollbackTx])
        | .ok _ => runCols o casc rest (evs ++ [.processCol c])

/-- `Anonymizer.Run` (lines 99-238): connect, resolve and validate
columns, compute processing order and cascade targets, begin the
transaction, process each non-skipped column, commit — with rollback
on any error after the transaction began. -/
def anonymizerRun (o : RunOracle) : Except String Unit × List RunEvent :=
  if ¬ o.connectOk then (.error "connect failed", [])
  else
    match o.columnRefs with
    | .error e => (.error e, [])
    | .ok _ =>
      match o.validateMissing with
      | .error e => (.error e, [])
      | .ok missing =>
        if missing ≠ [] then (.error "columns not found", [])
        else
          match o.order with
          | .error e => (.error e, [])
          | .ok ordered =>
            match o.cascades with
            | .error e => (.error e, [])
            | .ok casc =>
              if ¬ o.beginOk then (.error "begin failed", [])
              else runCols o casc ordered [.beginTx]

/-- The columns `Run` actually processes: the ordered list minus the
cascade-target skip set. -/
def processedCols (ordered casc : List ColRef) : List ColRef :=
  ordered.filter (fun c => c.key ∉ casc.map ColRef.key)

theorem runCols_ok (o : RunOracle) (casc : List ColRef) :
    ∀ (cols : List ColRef) (evs tr : List RunEvent),
      runCols o casc cols evs = (.ok (), tr) →
      tr = evs ++ (processedCols cols casc).map RunEvent.processCol ++
        [RunEvent.commitTx] ∧
      o.commitOk = true ∧
      ∀ c ∈ processedCols cols casc, ∃ u, o.processCol c = .ok u := by
  intro cols
  induction cols with
  | nil =>
    intro evs tr h
    simp only [runCols] at h
    by_cases hc : o.commitOk
    · rw [if_pos hc] at h
      injection h with h1 h2
      subst h2
      refine ⟨by simp [processedCols], hc, ?_⟩
      intro c hc2
      simp [processedCols] at hc2
    · rw [if_neg hc] at h
      cases h
  | cons c rest ih =>
    intro evs tr h
    simp only [runCols] at h
    by_cases hskip : c.key ∈ casc.map ColRef.key
    · rw [if_pos hskip] at h
      obtain ⟨h1, h2, h3⟩ := ih evs tr h
      have hfil : processedCols (c :: rest) casc = processedCols rest casc := by
        unfold processedCols
        rw [List.filter_cons_of_neg (by simp [hskip])]
      rw [hfil]
      exact ⟨h1, h2, h3⟩
    · rw [if_neg hskip] at h
      have hfil : processedCols (c :: rest) casc = c :: processedCols rest casc := by
        unfold processedCols
        rw [List.filter_cons_of_pos (by simp [hskip])]
      by_cases hcfg : o.hasConfig c
      · rw [if_neg (by simp [hcfg])] at h
        cases hdt : o.dataType c with
        | error e => rw [hdt] at h; cases h
        | ok s =>
          rw [hdt] at h
          cases hpc : o.processCol c with
          | error e => rw [hpc] at h; cases h
          | ok u =>
            rw [hpc] at h
            obtain ⟨h1, h2, h3⟩ := ih _ tr h
            rw [hfil]
            refine ⟨by rw [h1]; simp, h2, ?_⟩
            intro c2 hc2
            rcases List.mem_cons.mp hc2 with h4 | h4
            · subst h4; exact ⟨u, hpc⟩
            · exact h3 c2 h4
      · rw [if_pos (by simp [hcfg])] at h
        cases h

theorem runCols_error (o : RunOracle) (casc : List ColRef) :
    ∀ (cols : List ColRef) (evs tr : List RunEvent) (e : String),
      runCols o casc cols evs = (.error e, tr) →
      ∃ pre, tr = evs ++ pre ++ [RunEvent.rollbackTx] ∧
        ∀ ev ∈ pre, ∃ c, ev = RunEvent.processCol c ∧
          c.key ∉ casc.map ColRef.key := by
  intro cols
  induction cols with
  | nil =>
    intro evs tr e h
    simp only [runCols] at h
    by_cases hc : o.commitOk
    · rw [if_pos hc] at h
      cases h
    · rw [if_neg hc] at h
      injection h with h1 h2
      subst h2
      exact ⟨[], by simp, by intro ev hev; cases hev⟩
  | cons c rest ih =>
    intro evs tr e h
    simp only [runCols] at h
    by_cases hskip : c.key ∈ casc.map ColRef.key
    · rw [if_pos hskip] at h
      exact ih evs tr e h
    · rw [if_neg hskip] at h
      by_cases hcfg : o.hasConfig c
      · rw [if_neg (by simp [hcfg])] at h
        cases hdt : o.dataType c with
        | error e2 =>
          rw [hdt] at h
          injection h with h1 h2
          subst h2
          exact ⟨[], by simp, by intro ev hev; cases hev⟩
        | ok s =>
          rw [hdt] at h
          cases hpc : o.processCol c with
          | error e2 =>
            rw [hpc] at h
            injection h with h1 h2
            subst h2
            exact ⟨[], by simp, by intro ev hev; cases hev⟩
          | ok u =>
            rw [hpc] at h
            obtain ⟨pre, h1, h2⟩ := ih _ tr e h
            refine ⟨RunEvent.processCol c :: pre, by rw [h1]; simp, ?_⟩
            intro ev hev
            rcases List.mem_cons.mp hev with h3 | h3
            · exact ⟨c, h3, hskip⟩
            · exact h2 ev h3
      · rw [if_pos (by simp [hcfg])] at h
        injection h with h1 h2
        subst h2
        exact ⟨[], by simp, by intro ev hev; cases hev⟩

theorem anonymizerRun_cases (o : RunOracle) :
    (∃ e, anonymizerRun o = (.error e, [])) ∨
    (∃ ordered casc, o.order = .ok ordered ∧ o.cascades = .ok casc ∧
      anonymizerRun o = runCols o casc ordered [RunEvent.beginTx]) := by
  by_cases h1 : o.connectOk
  · cases h2 : o.columnRefs with
    | error e => exact Or.inl ⟨e, by simp [anonymizerRun, h1, h2]⟩
    | ok cols =>
      cases h3 : o.validateMissing with
      | error e => exact Or.inl ⟨e, by simp [anonymizerRun, h1, h2, h3]⟩
      | ok missing =>
        by_cases h4 : missing = []
        · cases h5 : o.order with
          | error e =>
            exact Or.inl ⟨e, by simp [anonymizerRun, h1, h2, h3, h4, h5]⟩
          | ok ordered =>
            cases h6 : o.cascades with
            | error e =>
              exact Or.inl ⟨e, by simp [anonymizerRun, h1, h2, h3, h4, h5, h6]⟩
            | ok casc =>
              by_cases h7 : o.beginOk
              · exact Or.inr ⟨ordered, casc, rfl, rfl,
                  by simp [anonymizerRun, h1, h2, h3, h4, h5, h6, h7]⟩
              · exact Or.inl ⟨"begin failed",
                  by simp [anonymizerRun, h1, h2, h3, h4, h5, h6, h7]⟩
        · exact Or.inl ⟨"columns not found",
            by simp [anonymizerRun, h1, h2, h3, h4]⟩
  · exact Or.inl ⟨"connect failed", by simp [anonymizerRun, h1]⟩

/-- C4: all column processing happens between the single `BeginTx`
(requested SERIALIZABLE) and the final commit; `Run` commits exactly
when every non-skipped ordered column processed successfully and never
rolls back in that case; on any error it never commits, and once the
transaction has begun, every error path ends in the deferred
rollback. -/
theorem run_transaction_discipline (o : RunOracle) :
    (∀ u, (anonymizerRun o).1 = .ok u →
      ∃ ordered casc, o.order = .ok ordered ∧ o.cascades = .ok casc ∧
        (anonymizerRun o).2 =
          RunEvent.beginTx ::
            ((processedCols ordered casc).map RunEvent.processCol ++
              [RunEvent.commitTx]) ∧
        RunEvent.rollbackTx ∉ (anonymizerRun o).2 ∧
        o.commitOk = true ∧
        (∀ c ∈ processedCols ordered casc, ∃ v, o.processCol c = .ok v)) ∧
    (∀ e, (anonymizerRun o).1 = .error e →
      RunEvent.commitTx ∉ (anonymizerRun o).2 ∧
      (RunEvent.beginTx ∈ (anonymizerRun o).2 →
        ∃ pre, (anonymizerRun o).2 =
            RunEvent.beginTx :: (pre ++ [RunEvent.rollbackTx]) ∧
          RunEvent.commitTx ∉ pre)) ∧
    beginTxIsolation = IsolationLevel.serializable := by
  rcases anonymizerRun_cases o with ⟨e0, hrun⟩ | ⟨ordered, casc, hord, hcas, hrun⟩
  · refine ⟨?_, ?_, rfl⟩
    · intro u hu
      rw [hrun] at hu
      cases hu
    · intro e he
      rw [hrun]
      exact ⟨fun h => (by cases h), fun h => (by cases h)⟩
  · rcases hrc : runCols o casc ordered [RunEvent.beginTx] with ⟨r, tr⟩
    cases r with
    | ok u =>
      obtain ⟨htr, hcommit, hproc⟩ := runCols_ok o casc ordered _ tr hrc
      refine ⟨?_, ?_, rfl⟩
      · intro u2 _
        refine ⟨ordered, casc, hord, hcas, ?_, ?_, hcommit, hproc⟩
        · rw [hrun, hrc, htr]
          simp
        · rw [hrun, hrc, htr]
          intro hmem
          rcases List.mem_append.mp hmem with h1 | h1
          · rcases List.mem_append.mp h1 with h2 | h2
            · rcases List.mem_singleton.mp h2 with h3
              cases h3
            · rcases List.mem_map.mp h2 with ⟨c, _, h3⟩
              cases h3
          · rcases List.mem_singleton.mp h1 with h3
            cases h3
      · intro e he
        rw [hrun, hrc] at he
        cases he
    | error e =>
      obtain ⟨pre, htr, hpre⟩ := runCols_error o casc ordered _ tr e hrc
      have hcommit_notin : RunEvent.commitTx ∉ tr := by
        rw [htr]
        intro hmem
        rcases List.mem_append.mp hmem with h1 | h1
        · rcases List.mem_append.mp h1 with h2 | h2
          · rcases List.mem_singleton.mp h2 with h3
            cases h3
          · rcases hpre _ h2 with ⟨c, h3, _⟩
            cases h3
        · rcases List.mem_singleton.mp h1 with h3
          cases h3
      refine ⟨?_, ?_, rfl⟩
      · intro u hu
        rw [hrun, hrc] at hu
        cases hu
      · intro e2 _
        rw [hrun, hrc]
        refine ⟨hcommit_notin, ?_⟩
        intro _
        refine ⟨pre, by rw [htr]; simp, ?_⟩
        intro hmem
        rcases hpre _ hmem with ⟨c, h3, _⟩
        cases h3

/-- C1: `Anonymizer.Run` never performs the distinct-value preload —
no execution path emits a `preload` event, the dead code
`GetDistinctValues`/`PreloadUsedValues` notwithstanding.
Consequence at the dictionary: a freshly created dictionary accepts an
anonymized value equal to a value already present in the database
(`SetUnique` returns true), whereas after the preload the spec
describes the same value would be rejected. -/
theorem run_never_preloads (o : RunOracle) (vs : List String) :
    RunEvent.preload vs ∉ (anonymizerRun o).2 ∧
    ((Dict.empty 1000000).setUnique "b@x.com" "taken@x.com").1 = true ∧
    (((Dict.empty 1000000).preloadUsedValues ["taken@x.com"]).setUnique
      "b@x.com" "taken@x.com").1 = false := by
  refine ⟨?_, by decide, by decide⟩
  rcases anonymizerRun_cases o with ⟨e0, hrun⟩ | ⟨ordered, casc, _, _, hrun⟩
  · rw [hrun]
    intro h
    cases h
  · rw [hrun]
    rcases hrc : runCols o casc ordered [RunEvent.beginTx] with ⟨r, tr⟩
    cases r with
    | ok u =>
      obtain ⟨htr, _, _⟩ := runCols_ok o casc ordered _ tr hrc
      rw [htr]
      intro hmem
      rcases List.mem_append.mp hmem with h1 | h1
      · rcases List.mem_append.mp h1 with h2 | h2
        · rcases List.mem_singleton.mp h2 with h3
          cases h3
        · rcases List.mem_map.mp h2 with ⟨c, _, h3⟩
          cases h3
      · rcases List.mem_singleton.mp h1 with h3
        cases h3
    | error e =>
      obtain ⟨pre, htr, hpre⟩ := runCols_error o casc ordered _ tr e hrc
      rw [htr]
      intro hmem
      rcases List.mem_append.mp hmem with h1 | h1
      · rcases List.mem_append.mp h1 with h2 | h2
        · rcases List.mem_singleton.mp h2 with h3
          cases h3
        · rcases hpre _ h2 with ⟨c, h3, _⟩
          cases h3
      · rcases List.mem_singleton.mp h1 with h3
        cases h3

/-- A run in which every step succeeds, over one configured column. -/
def okOracle : RunOracle :=
  { connectOk := true
    columnRefs := .ok [⟨"public", "t", "a"⟩]
    validateMissing := .ok []
    order := .ok [⟨"public", "t", "a"⟩]
    cascades := .ok []
    beginOk := true
    hasConfig := fun _ => true
    dataType := fun _ => .ok "text"
    processCol := fun _ => .ok ()
    commitOk := true }

/-- The same run with an induced column-processing failure. -/
def failOracle : RunOracle :=
  { okOracle with processCol := fun _ => .error "induced failure" }

/-- C4 (witness): the all-success run never rolls back; the failing
run never commits. -/
theorem run_transaction_discipline_witness :
    RunEvent.rollbackTx ∉ (anonymizerRun okOracle).2 ∧
    RunEvent.commitTx ∉ (anonymizerRun failOracle).2 := by
  constructor
  · obtain ⟨ordered, casc, hord, hcas, htr, hroll, hc, hp⟩ :=
      (run_transaction_discipline okOracle).1 () rfl
    exact hroll
  · exact ((run_transaction_discipline failOracle).2.1 "induced failure" rfl).1

/-! ### Soundness facts for `getProcessingOrder` -/

theorem lookupCol_key {columns : List ColRef} {k : String}
    (h : k ∈ columns.map ColRef.key) : (lookupCol columns k).key = k := by
  unfold lookupCol
  cases hf : columns.reverse.find? (fun c => c.key = k) with
  | some c =>
    have := List.find?_some hf
    simpa using this
  | none =>
    exfalso
    rcases List.mem_map.mp h with ⟨c, hc, hk⟩
    have hcrev : c ∈ columns.reverse := List.mem_reverse.mpr hc
    have := List.find?_eq_none.mp hf c hcrev
    simp [hk] at this

theorem getProcessingOrder_ok_facts {columns : List ColRef}
    {fks : List ForeignKey} {enum : List String} {out : List ColRef}
    (h : getProcessingOrder columns fks enum = .ok out) :
    ∃ res, out = res.map (lookupCol columns) ∧
      (∀ dep ∈ enum, dep ∈ res) ∧
      topoOK columns fks res ∧ res.Nodup ∧
      (∀ x ∈ res, x ∈ enum ∨ x ∈ columns.map ColRef.key) := by
  unfold getProcessingOrder at h
  cases hvd : visitDeps
      (fun t r k =>
        visit columns fks ((columns.map ColRef.key).dedup.length + 1) t r k)
      [] [] enum with
  | error e => rw [hvd] at h; cases h
  | ok res =>
    rw [hvd] at h
    injection h with h2
    obtain ⟨hext, hmem, hnd, htopo, hsub⟩ :=
      visitDeps_ok_spec (visit_ok_spec columns fks _) enum [] [] res hvd
    refine ⟨res, h2.symm, hmem, ?_, hnd List.nodup_nil, ?_⟩
    · apply htopo
      intro c hc
      cases hc
    · intro x hx
      rcases hsub x hx with h1 | h1 | h1
      · cases h1
      · exact Or.inl h1
      · exact Or.inr h1

theorem depsOf_child_mem {columns : List ColRef} {fks : List ForeignKey}
    {k p : String} (h : p ∈ depsOf columns fks k) :
    k ∈ columns.map ColRef.key := by
  unfold depsOf at h
  rcases List.mem_map.mp h with ⟨fk, hfk, hp⟩
  have := List.of_mem_filter hfk
  simp only [decide_eq_true_eq] at this
  rw [← this.2.2.2]
  exact this.2.2.1

theorem mem_depsOf_of_fk {columns : List ColRef} {fks : List ForeignKey}
    {fk : ForeignKey} (hmem : fk ∈ fks) (hcas : fk.onUpdate = "CASCADE")
    (hp : fk.parentRef.key ∈ columns.map ColRef.key)
    (hc : fk.childRef.key ∈ columns.map ColRef.key) :
    fk.parentRef.key ∈ depsOf columns fks fk.childRef.key := by
  unfold depsOf
  apply List.mem_map.mpr
  refine ⟨fk, ?_, rfl⟩
  apply List.mem_filter.mpr
  refine ⟨hmem, ?_⟩
  simp [hcas, hp, hc]

theorem getProcessingOrder_keys {columns : List ColRef}
    {enum : List String} {out : List ColRef}
    {res : List String}
    (hsub : ∀ x ∈ res, x ∈ enum ∨ x ∈ columns.map ColRef.key)
    (henum : ∀ k ∈ enum, k ∈ columns.map ColRef.key)
    (hout : out = res.map (lookupCol columns)) :
    out.map ColRef.key = res := by
  rw [hout, List.map_map]
  have : ∀ x ∈ res, (ColRef.key ∘ lookupCol columns) x = id x := by
    intro x hx
    rcases hsub x hx with h1 | h1
    · exact lookupCol_key (henum x h1)
    · exact lookupCol_key h1
  rw [List.map_congr_left this, List.map_id]

/-- The order part of C3: a CASCADE foreign key with both ends
configured forces the parent strictly before the child in any returned
order. -/
theorem getProcessingOrder_parent_first {columns : List ColRef}
    {fks : List ForeignKey} {enum : List String} {fk : ForeignKey}
    {out : List ColRef}
    (hmem : fk ∈ fks) (hcas : fk.onUpdate = "CASCADE")
    (hp : fk.parentRef.key ∈ columns.map ColRef.key)
    (hc : fk.childRef.key ∈ columns.map ColRef.key)
    (henum1 : ∀ k ∈ enum, k ∈ columns.map ColRef.key)
    (henum2 : ∀ k ∈ columns.map ColRef.key, k ∈ enum)
    (h : getProcessingOrder columns fks enum = .ok out) :
    fk.parentRef.key ∈ out.map ColRef.key ∧
    fk.childRef.key ∈ out.map ColRef.key ∧
    (out.map ColRef.key).indexOf fk.parentRef.key <
      (out.map ColRef.key).indexOf fk.childRef.key := by
  obtain ⟨res, hout, hmemE, htopo, hnd, hsub⟩ := getProcessingOrder_ok_facts h
  have hkeys : out.map ColRef.key = res :=
    getProcessingOrder_keys hsub henum1 hout
  have hcres : fk.childRef.key ∈ res := hmemE _ (henum2 _ hc)
  have hedge := mem_depsOf_of_fk hmem hcas hp hc
  obtain ⟨hpres, hidx⟩ := htopo _ hcres _ hedge
  rw [hkeys]
  exact ⟨hpres, hcres, hidx⟩

/-- The cycle part of C3: a cycle among the CASCADE edges over the
configured columns makes `GetProcessingOrder` fail for every
enumeration order. -/
theorem getProcessingOrder_cycle_error {columns : List ColRef}
    {fks : List ForeignKey} {enum : List String}
    (henum2 : ∀ k ∈ columns.map ColRef.key, k ∈ enum)
    (hcyc : ∃ k, Relation.TransGen
      (fun ck pk => pk ∈ depsOf columns fks ck) k k) :
    ∀ out, getProcessingOrder columns fks enum ≠ .ok out := by
  intro out h
  obtain ⟨res, _, hmemE, htopo, _, _⟩ := getProcessingOrder_ok_facts h
  obtain ⟨k, hk⟩ := hcyc
  have hstart : ∀ a b, (fun ck pk => pk ∈ depsOf columns fks ck) a b →
      a ∈ res := by
    intro a b hab
    exact hmemE _ (henum2 _ (depsOf_child_mem hab))
  have hstep : ∀ a b,
      Relation.TransGen (fun ck pk => pk ∈ depsOf columns fks ck) a b →
      b ∈ res ∧ res.indexOf b < res.indexOf a := by
    intro a b hab
    induction hab with
    | single h1 => exact htopo _ (hstart _ _ h1) _ h1
    | tail h1 h2 ih =>
      obtain ⟨hbres, hlt⟩ := ih
      obtain ⟨hcres, hlt2⟩ := htopo _ hbres _ h2
      exact ⟨hcres, lt_trans hlt2 hlt⟩
  obtain ⟨_, hlt⟩ := hstep k k hk
  exact absurd hlt (lt_irrefl _)

/-- C3: for a CASCADE-update foreign key with both ends configured,
every order `GetProcessingOrder` returns places the parent strictly
before the child; `GetCascadeTargets` lists the child; `Run` never
invokes a column processor for a column whose key is in the
cascade-target set; and if the CASCADE-edge graph over the configured
columns contains a cycle, `GetProcessingOrder` returns an error for
every map-iteration order covering the column keys. -/
theorem cascade_order_and_skip (columns : List ColRef) (fks : List ForeignKey)
    (enum : List String) (fk : ForeignKey) (out : List ColRef)
    (o : RunOracle) (casc : List ColRef) (c : ColRef) :
    (fk ∈ fks → fk.onUpdate = "CASCADE" →
      fk.parentRef.key ∈ columns.map ColRef.key →
      fk.childRef.key ∈ columns.map ColRef.key →
      (∀ k ∈ enum, k ∈ columns.map ColRef.key) →
      (∀ k ∈ columns.map ColRef.key, k ∈ enum) →
      getProcessingOrder columns fks enum = .ok out →
      fk.parentRef.key ∈ out.map ColRef.key ∧
      fk.childRef.key ∈ out.map ColRef.key ∧
      (out.map ColRef.key).indexOf fk.parentRef.key <
        (out.map ColRef.key).indexOf fk.childRef.key) ∧
    (fk ∈ fks → fk.onUpdate = "CASCADE" →
      fk.parentRef.key ∈ columns.map ColRef.key →
      fk.childRef ∈ getCascadeTargets columns fks) ∧
    (o.cascades = .ok casc → c.key ∈ casc.map ColRef.key →
      RunEvent.processCol c ∉ (anonymizerRun o).2) ∧
    ((∀ k ∈ columns.map ColRef.key, k ∈ enum) →
      (∃ k, Relation.TransGen
        (fun ck pk => pk ∈ depsOf columns fks ck) k k) →
      getProcessingOrder columns fks enum ≠ .ok out) := by
  refine ⟨?_, ?_, ?_, ?_⟩
  · intro hmem hcas hp hc henum1 henum2 h
    exact getProcessingOrder_parent_first hmem hcas hp hc henum1 henum2 h
  · intro hmem hcas hp
    unfold getCascadeTargets
    apply List.mem_map.mpr
    refine ⟨fk, ?_, rfl⟩
    apply List.mem_filter.mpr
    refine ⟨hmem, ?_⟩
    simp [hcas, hp]
  · intro hcasc hkey
    rcases anonymizerRun_cases o with ⟨e0, hrun⟩ | ⟨ordered, casc2, hord, hcas2, hrun⟩
    · rw [hrun]
      intro hmem
      cases hmem
    · have hcc : casc2 = casc := by
        rw [hcasc] at hcas2
        injection hcas2 with h9
        exact h9.symm
      subst hcc
      rw [hrun]
      rcases hrc : runCols o casc2 ordered [RunEvent.beginTx] with ⟨r, tr⟩
      cases r with
      | ok u =>
        obtain ⟨htr, _, _⟩ := runCols_ok o casc2 ordered _ tr hrc
        rw [htr]
        intro hmem
        rcases List.mem_append.mp hmem with h1 | h1
        · rcases List.mem_append.mp h1 with h2 | h2
          · rcases List.mem_singleton.mp h2 with h3
            cases h3
          · rcases List.mem_map.mp h2 with ⟨c2, hc2, h3⟩
            injection h3 with h4
            subst h4
            have := List.of_mem_filter hc2
            simp only [decide_eq_true_eq] at this
            exact this hkey
        · rcases List.mem_singleton.mp h1 with h3
          cases h3
      | error e =>
        obtain ⟨pre, htr, hpre⟩ := runCols_error o casc2 ordered _ tr e hrc
        rw [htr]
        intro hmem
        rcases List.mem_append.mp hmem with h1 | h1
        · rcases List.mem_append.mp h1 with h2 | h2
          · rcases List.mem_singleton.mp h2 with h3
            cases h3
          · rcases hpre _ h2 with ⟨c2, h3, h4⟩
            injection h3 with h5
            subst h5
            exact h4 hkey
        · rcases List.mem_singleton.mp h1 with h3
          cases h3
  · intro henum2 hcyc
    exact getProcessingOrder_cycle_error henum2 hcyc out

/-! ### Concrete columns for the C3 and C7 instances -/

def colP : ColRef := ⟨"public", "parents", "name"⟩

def colC : ColRef := ⟨"public", "children", "parent_name"⟩

def fkPC : ForeignKey :=
  ⟨"fk_children_parent", "public", "parents", "name",
    "public", "children", "parent_name", "CASCADE", "NO ACTION"⟩

def skipOracle : RunOracle :=
  { okOracle with order := .ok [colP, colC], cascades := .ok [colC] }

def colA : ColRef := ⟨"public", "a", "x"⟩

def colB : ColRef := ⟨"public", "b", "y"⟩

def fkAB : ForeignKey :=
  ⟨"fk_b_a", "public", "a", "x", "public", "b", "y", "CASCADE", "NO ACTION"⟩

def fkBA : ForeignKey :=
  ⟨"fk_a_b", "public", "b", "y", "public", "a", "x", "CASCADE", "NO ACTION"⟩

/-- C3 (witness): a parent/child CASCADE pair ordered parent-first even
when the map iteration lists the child first; the child is a cascade
target; the run never processes it; a two-cycle forces an error. -/
theorem cascade_order_and_skip_witness :
    (fkPC.parentRef.key ∈ ([colP, colC].map ColRef.key) ∧
     fkPC.childRef.key ∈ ([colP, colC].map ColRef.key) ∧
     (([colP, colC].map ColRef.key)).indexOf fkPC.parentRef.key <
       (([colP, colC].map ColRef.key)).indexOf fkPC.childRef.key) ∧
    fkPC.childRef ∈ getCascadeTargets [colP, colC] [fkPC] ∧
    RunEvent.processCol colC ∉ (anonymizerRun skipOracle).2 ∧
    getProcessingOrder [colA, colB] [fkAB, fkBA] [colA.key, colB.key] ≠
      .ok [] := by
  refine ⟨?_, ?_, ?_, ?_⟩
  · exact (cascade_order_and_skip [colP, colC] [fkPC] [colC.key, colP.key]
      fkPC [colP, colC] skipOracle [colC] colC).1 (by decide) (by decide)
      (by decide) (by decide) (by decide) (by decide) (by rfl)
  · exact (cascade_order_and_skip [colP, colC] [fkPC] [colC.key, colP.key]
      fkPC [colP, colC] skipOracle [colC] colC).2.1 (by decide) (by decide)
      (by decide)
  · exact (cascade_order_and_skip [colP, colC] [fkPC] [colC.key, colP.key]
      fkPC [colP, colC] skipOracle [colC] colC).2.2.1 rfl (by decide)
  · exact (cascade_order_and_skip [colA, colB] [fkAB, fkBA]
      [colA.key, colB.key] fkAB [] skipOracle [] colC).2.2.2 (by decide)
      ⟨colA.key, Relation.TransGen.tail
        (Relation.TransGen.single
          (show colB.key ∈ depsOf [colA, colB] [fkAB, fkBA] colA.key by decide))
        (show colA.key ∈ depsOf [colA, colB] [fkAB, fkBA] colB.key by decide)⟩

/-! ## Claim C7: tie-breaking in `GetProcessingOrder` -/

/-- C7 (counterexample): with two unconstrained columns, the returned
order follows the map-iteration order of the column-key set, not the
input task order: iterating `[B, A]` over input `[A, B]` yields
`[B, A]`.  Both iteration orders are valid enumerations of the same
key set, so two calls with identical inputs can return different
orders. -/
theorem order_depends_on_map_iteration :
    getProcessingOrder [colA, colB] [] [colA.key, colB.key] =
      .ok [colA, colB] ∧
    getProcessingOrder [colA, colB] [] [colB.key, colA.key] =
      .ok [colB, colA] ∧
    ([colB, colA] ≠ [colA, colB]) ∧
    [colB.key, colA.key].Perm [colA.key, colB.key] ∧
    [colA.key, colB.key].Nodup ∧ [colB.key, colA.key].Nodup := by
  refine ⟨by rfl, by rfl, by decide, by decide, by decide, by decide⟩

theorem visitDeps_no_edges (columns : List ColRef) (fks : List ForeignKey)
    (hdeps : ∀ k, depsOf columns fks k = []) (fuel : Nat) :
    ∀ (e res : List String), e.Nodup → (∀ k ∈ e, k ∉ res) →
      visitDeps (fun t r k => visit columns fks (fuel + 1) t r k) [] res e =
        .ok (res ++ e) := by
  intro e
  induction e with
  | nil => intro res _ _; simp [visitDeps]
  | cons k rest ih =>
    intro res hnd hnotin
    simp only [visitDeps]
    have hv : visit columns fks (fuel + 1) [] res k = .ok (res ++ [k]) := by
      simp only [visit]
      rw [if_neg (List.not_mem_nil k)]
      rw [if_neg (hnotin k (List.mem_cons_self _ _))]
      rw [hdeps k]
      simp [visitDeps]
    have hnd2 := List.nodup_cons.mp hnd
    have hcond : ∀ k2 ∈ rest, k2 ∉ res ++ [k] := by
      intro k2 hk2
      rw [List.mem_append]
      push_neg
      refine ⟨hnotin k2 (List.mem_cons_of_mem _ hk2), ?_⟩
      intro hk3
      rcases List.mem_singleton.mp hk3 with h3
      subst h3
      exact hnd2.1 hk2
    simp only [hv]
    rw [ih (res ++ [k]) hnd2.2 hcond]
    rw [List.append_assoc]
    simp

/-- C7 (amended): ties are broken by the map-iteration order of the
column-key set, not by the input task order: when no CASCADE edge
relates the configured columns, the returned order is exactly the
iteration order, mapped back to columns.  Go randomizes this iteration,
so two calls with identical inputs may return different orders; the
function is deterministic only for a fixed iteration order. -/
theorem getProcessingOrder_follows_iteration (columns : List ColRef)
    (fks : List ForeignKey) (enum : List String)
    (hdeps : ∀ k, depsOf columns fks k = []) (hnd : enum.Nodup) :
    getProcessingOrder columns fks enum =
      .ok (enum.map (lookupCol columns)) := by
  have h := visitDeps_no_edges columns fks hdeps
    ((columns.map ColRef.key).dedup.length) enum [] hnd
    (by intro k _; exact List.not_mem_nil k)
  simp only [List.nil_append] at h
  simp [getProcessingOrder, h]

/-- C7 (witness): the no-edge instance at iteration order `[B, A]`. -/
theorem getProcessingOrder_follows_iteration_witness :
    getProcessingOrder [colA, colB] [] [colB.key, colA.key] =
      .ok ([colB.key, colA.key].map (lookupCol [colA, colB])) :=
  getProcessingOrder_follows_iteration [colA, colB] [] [colB.key, colA.key]
    (fun _ => rfl) (by decide)

/-! ### The fuel bound is unreachable

The Go `visit` has no depth limit; the model's fuel exceeds the
deepest possible recursion (the `temp` path is duplicate-free and
drawn from the distinct column keys), so the "recursion limit" branch
can never fire and the model agrees with the unbounded recursion. -/

theorem circular_msg_ne (key : String) :
    ("circular dependency detected at " ++ key) ≠ "recursion limit" := by
  intro h
  have hlen := congrArg String.length h
  rw [String.length_append] at hlen
  have h1 : ("circular dependency detected at " : String).length = 32 := by rfl
  have h2 : ("recursion limit" : String).length = 15 := by rfl
  omega

theorem visitDeps_ne_fuelErr
    {f : List String → List String → String → Except String (List String)}
    {temp : List String}
    (hf : ∀ r dep, f temp r dep ≠ .error "recursion limit") :
    ∀ (deps r : List String),
      visitDeps f temp r deps ≠ .error "recursion limit" := by
  intro deps
  induction deps with
  | nil => intro r h; cases h
  | cons dep rest ih =>
    intro r h
    simp only [visitDeps] at h
    cases hv : f temp r dep with
    | error e =>
      rw [hv] at h
      injection h with h2
      exact hf r dep (hv.trans (by rw [h2]))
    | ok r2 =>
      rw [hv] at h
      exact ih r2 h

theorem visit_fuel_unreachable (columns : List ColRef) (fks : List ForeignKey) :
    ∀ (fuel : Nat) (temp : List String), temp.Nodup →
      (∀ t ∈ temp, t ∈ (columns.map ColRef.key).dedup) →
      (columns.map ColRef.key).dedup.length < fuel + temp.length →
      ∀ (res : List String) (key : String),
        visit columns fks fuel temp res key ≠ .error "recursion limit" := by
  intro fuel
  induction fuel with
  | zero =>
    intro temp hnd hsub hlt res key _
    have hle := (List.Nodup.subperm hnd hsub).length_le
    omega
  | succ n ih =>
    intro temp hnd hsub hlt res key h
    simp only [visit] at h
    by_cases htemp : key ∈ temp
    · rw [if_pos htemp] at h
      injection h with h2
      exact circular_msg_ne key h2
    · rw [if_neg htemp] at h
      by_cases hres : key ∈ res
      · rw [if_pos hres] at h
        cases h
      · rw [if_neg hres] at h
        cases hdeps : depsOf columns fks key with
        | nil =>
          rw [hdeps] at h
          simp only [visitDeps] at h
          cases h
        | cons d rest =>
          have hkey : key ∈ (columns.map ColRef.key).dedup := by
            rw [List.mem_dedup]
            exact depsOf_child_mem (p := d) (by rw [hdeps]; exact List.mem_cons_self _ _)
          have hsub2 : ∀ t ∈ key :: temp, t ∈ (columns.map ColRef.key).dedup := by
            intro t ht
            rcases List.mem_cons.mp ht with h1 | h1
            · exact h1 ▸ hkey
            · exact hsub t h1
          have hnd2 : (key :: temp).Nodup := List.nodup_cons.mpr ⟨htemp, hnd⟩
          have hlt2 : (columns.map ColRef.key).dedup.length <
              n + (key :: temp).length := by
            simp only [List.length_cons]
            omega
          have hinner : ∀ r dep,
              visit columns fks n (key :: temp) r dep ≠
                .error "recursion limit" := by
            intro r dep
            exact ih (key :: temp) hnd2 hsub2 hlt2 r dep
          rw [hdeps] at h
          cases hvd : visitDeps (fun t r k => visit columns fks n t r k)
              (key :: temp) res (d :: rest) with
          | error e =>
            rw [hvd] at h
            injection h with h2
            exact visitDeps_ne_fuelErr hinner (d :: rest) res
              (hvd.trans (by rw [h2]))
          | ok res2 =>
            rw [hvd] at h
            cases h

/-- The modelled `GetProcessingOrder` never fails through the fuel
bound: every error it returns is the Go cycle error. -/
theorem getProcessingOrder_no_fuel_error (columns : List ColRef)
    (fks : List ForeignKey) (enum : List String) :
    getProcessingOrder columns fks enum ≠ .error "recursion limit" := by
  intro h
  unfold getProcessingOrder at h
  cases hvd : visitDeps
      (fun t r k =>
        visit columns fks ((columns.map ColRef.key).dedup.length + 1) t r k)
      [] [] enum with
  | error e =>
    rw [hvd] at h
    injection h with h2
    subst h2
    have hinner : ∀ (r : List String) (dep : String),
        visit columns fks ((columns.map ColRef.key).dedup.length + 1) [] r dep ≠
          .error "recursion limit" := by
      intro r dep
      exact visit_fuel_unreachable columns fks _ [] List.nodup_nil
        (by intro t ht; cases ht) (by simp) r dep
    exact visitDeps_ne_fuelErr hinner enum [] hvd
  | ok res =>
    rw [hvd] at h
    cases h

end PgAnon
